import Mathlib

/-!
Verification of the dedupfs storage engine (src/dedupfs.py) against its
natural-language specification.

This file gives a shallow embedding of the parts of dedupfs.py that the
claims concern: the SQLite-backed metadata tables (tree, inodes, links,
hashes, "index", options), the dbm block store, the in-memory path cache
(cached_nodes), the per-open-file write buffers, and the FUSE callbacks
access, chmod, chown, create, link, mkdir, mknod, read, release, rename,
rmdir, symlink, truncate, unlink, utime, utimens and write, together with
the helpers path2keys, insert, remove, write_blocks, get_file_buffer,
collect_garbage, gc_hook, get_opts_from_db and the Buffer class.

Modelling decisions, each taken from the source:
* Bytes are lists of naturals; the digest returned by hexdigest() is a
  String.  The hash function, compressor and decompressor are carried in
  the state, as they are on the DedupFS object (hash_function_impl,
  compress, decompress).
* The sqlite3 connection is opened with isolation_level=None and no BEGIN
  is ever executed, so the connection is in autocommit mode: every
  executed statement takes effect immediately, and conn.commit() /
  conn.rollback() find no open transaction and change nothing.  The
  embedding therefore applies each statement's effect directly and models
  commit_changes / rollback_changes as identities on the data.
* sys.exit(1) raises SystemExit, which in Python 2.5+ derives from
  BaseException, not Exception; the callbacks' except-Exception handlers
  do not catch it and the process terminates with the state as mutated so
  far.  This is the CallResult.exited outcome of release.
* collect_garbage's third sweep iterates self.execute(...), an attribute
  DedupFS does not have; the faithful model raises AttributeError there,
  after the first two sweeps have taken effect.  A second definition,
  collectGarbageIntended, performs the sweep the way the spec describes.
* SQLite row ids (last_insert_rowid) are modelled by monotone counters;
  SQLite only guarantees freshness of the id, which the counters provide.
* int(math.ceil(size / float(block_size))) is modelled by exact natural
  ceiling division; the two agree for every size a file system can hold.
* time.time() is modelled by a clock field now that the operations read;
  no operation advances it.
-/

namespace Dedup

/-- Byte strings: Python str of dedupfs.py (values 0..255; the range is not
needed by any claim and is not enforced). -/
abbrev Bytes := List Nat

/-- stat.S_IFDIR. -/
def sIFDIR : Nat := 16384

/-- stat.S_IFLNK combined with the 0777 bits: DedupFS.link_mode. -/
def linkMode : Nat := 41471

/-- stat.S_IFDIR combined with 0755: DedupFS.root_mode. -/
def rootMode : Nat := 16877

/-- os.F_OK. -/
def fOK : Nat := 0
/-- os.X_OK. -/
def xOK : Nat := 1
/-- os.W_OK. -/
def wOK : Nat := 2
/-- os.R_OK. -/
def rOK : Nat := 4

/-- errno.ENOENT. -/
def eNoEnt : Int := 2
/-- errno.EIO. -/
def eIo : Int := 5
/-- errno.EACCES. -/
def eAccess : Int := 13
/-- errno.EROFS. -/
def eRofs : Int := 30
/-- errno.ENOTEMPTY. -/
def eNotEmpty : Int := 39

/-- A row of the tree table: (id INTEGER PRIMARY KEY, parent_id INTEGER,
name TEXT NOT NULL, inode INTEGER NOT NULL). -/
structure TreeRow where
  id : Nat
  parent_id : Option Nat
  name : String
  inode : Nat
deriving DecidableEq, Repr

/-- A row of the inodes table. nlinks is an integer that the code
increments and decrements without a lower bound, hence Int. -/
structure InodeRow where
  inode : Nat
  nlinks : Int
  mode : Nat
  uid : Nat
  gid : Nat
  rdev : Nat
  size : Nat
  atime : Nat
  mtime : Nat
  ctime : Nat
deriving DecidableEq, Repr

/-- A row of the "index" table: (inode, hash_id, block_nr). -/
structure IndexRow where
  inode : Nat
  hash_id : Nat
  block_nr : Nat
deriving DecidableEq, Repr

/-- The Buffer class: a cStringIO.StringIO wrapper with a length, a file
position and a dirty flag. -/
structure Buf where
  data : Bytes
  pos : Nat
  dirty : Bool
deriving DecidableEq, Repr

/-- The in-memory path cache cached_nodes.  In the source every node is a
dict holding the (tree_id, inode) value under key 0, the last-used stamp
under key 1, and one entry per cached child segment; the root is a bare
dict of children.  CNode is one node; a children dict is a CMap, an
association list of segments. -/
inductive CNode : Type where
  | mk : (Nat × Nat) → Nat → List (String × CNode) → CNode

/-- A cache children dict. -/
abbrev CMap := List (String × CNode)

/-- The value (tree_id, inode) stored in a cache node (dict key 0). -/
def CNode.value : CNode → Nat × Nat
  | .mk v _ _ => v

/-- The last-used stamp of a cache node (dict key 1). -/
def CNode.lastUsed : CNode → Nat
  | .mk _ t _ => t

/-- The cached children of a cache node. -/
def CNode.children : CNode → CMap
  | .mk _ _ c => c

/-- Dict lookup of a child segment. -/
def cmapFind : CMap → String → Option CNode
  | [], _ => none
  | p :: rest, k => if p.1 = k then some p.2 else cmapFind rest k

/-- Dict assignment node[segment] = child (replace or add). -/
def cmapSet : CMap → String → CNode → CMap
  | [], k, n => [(k, n)]
  | p :: rest, k, n =>
      if p.1 = k then (k, n) :: rest else p :: cmapSet rest k n

/-- Dict deletion del node[segment] (no-op when absent). -/
def cmapErase : CMap → String → CMap
  | [], _ => []
  | p :: rest, k => if p.1 = k then rest else p :: cmapErase rest k

/-- Following a chain of segments through the cache down to its value;
used to state what a resolution left in the cache. -/
def cmapFollowVal : CMap → List String → Option (Nat × Nat)
  | _, [] => none
  | m, [s] => (cmapFind m s).map CNode.value
  | m, s :: r :: rs => match cmapFind m s with
      | none => none
      | some n => cmapFollowVal n.children (r :: rs)

/-- The whole mutable state of one mounted DedupFS object: the metadata
tables, the dbm block store, the buffer pool, the path cache, the selected
algorithms and the counters the callbacks maintain. -/
structure FS where
  block_size : Nat
  hashFn : Bytes → String
  compress : Bytes → Bytes
  decompress : Bytes → Bytes
  tree : List TreeRow
  inodes : List InodeRow
  links : List (Nat × String)
  hashes : List (Nat × String)
  index : List IndexRow
  blocks : List (String × Bytes)
  buffers : List (String × Buf)
  cache : CMap
  read_only : Bool
  use_transactions : Bool
  gc_enabled : Bool
  verify_writes : Bool
  nextInode : Nat
  nextTreeId : Nat
  nextHashId : Nat
  lastRowid : Nat
  opcount : Nat
  cacheRequests : Nat
  cacheGcLastRun : Nat
  gcHookLastRun : Nat
  cacheTimeout : Nat
  gcInterval : Nat
  now : Nat
  ctxUid : Nat
  ctxGid : Nat

/-- str.split('/') over the characters (structural, so that concrete
scenarios evaluate inside the kernel): the pieces between the slashes,
including empty ones. -/
def splitOnSlashGo : List Char → List Char → List String
  | [], acc => [String.mk acc.reverse]
  | c :: cs, acc =>
      if c = '/' then String.mk acc.reverse :: splitOnSlashGo cs []
      else splitOnSlashGo cs (c :: acc)

/-- key.split('/'). -/
def splitOnSlash (p : String) : List String := splitOnSlashGo p.data []

/-- split_segments: key.split('/') with empty segments filtered out. -/
def splitSegments (p : String) : List String :=
  (splitOnSlash p).filter (fun s => s ≠ "")

/-- Joining path pieces back with slashes. -/
def joinSlash : List String → String
  | [] => ""
  | [s] => s
  | s :: rest => s ++ "/" ++ joinSlash rest

/-- os.path.split for the absolute paths FUSE passes: the part before the
last slash (the root when that is empty) and the part after it. -/
def splitPath (path : String) : String × String :=
  let parts := splitOnSlash path
  let name := (parts.getLast?).getD ""
  let dir := joinSlash parts.dropLast
  (if dir = "" then "/" else dir, name)

/-- SELECT id, inode FROM tree WHERE parent_id = ? AND name = ? (fetchone:
the unique index on (parent_id, name) admits at most one row). -/
def treeLookup (tree : List TreeRow) (pid : Nat) (name : String) :
    Option (Nat × Nat) :=
  (tree.find? (fun r => r.parent_id == some pid && r.name == name)).map
    (fun r => (r.id, r.inode))

/-- cache_do_gc: delete any cached subtree whose last-used stamp is older
than the timeout, recursing into the subtrees that stay. -/
def cacheDoGcMap (tnow timeout : Nat) : CMap → CMap
  | [] => []
  | (seg, CNode.mk v lu ch) :: rest =>
      if tnow - lu > timeout then cacheDoGcMap tnow timeout rest
      else (seg, CNode.mk v lu (cacheDoGcMap tnow timeout ch)) ::
        cacheDoGcMap tnow timeout rest

/-- cache_check_gc: bump the request counter; at 2500 requests run the
sweep when the timeout has elapsed, and reset the counter. -/
def cacheCheckGc (fs : FS) : FS :=
  let r := fs.cacheRequests + 1
  if 2500 ≤ r then
    if fs.cacheTimeout ≤ fs.now - fs.cacheGcLastRun then
      { fs with cache := cacheDoGcMap fs.now fs.cacheTimeout fs.cache,
                cacheGcLastRun := fs.now, cacheRequests := 0 }
    else { fs with cacheRequests := 0 }
  else { fs with cacheRequests := r }

/-- The outcome of the path2keys walk: the resolved keys or a miss, the
rebuilt cache, and how many tree queries were issued. -/
structure WalkOut where
  result : Except Unit (Nat × Nat)
  cache : CMap
  queries : Nat

/-- The while-loop of path2keys: consume the segments, descending through
the cache and stamping each visited node; on a cache miss query tree by
(parent_id, name), hang the fetched keys into the cache and continue; a
missing row ends the walk with a miss. -/
def walkSegs (tree : List TreeRow) (tnow : Nat) :
    List String → CMap → Nat → Nat × Nat → WalkOut
  | [], m, _pid, cur => ⟨.ok cur, m, 0⟩
  | seg :: rest, m, pid, _cur =>
      match cmapFind m seg with
      | some (CNode.mk v _lu ch) =>
          let w := walkSegs tree tnow rest ch v.1 v
          ⟨w.result, cmapSet m seg (CNode.mk v tnow w.cache), w.queries⟩
      | none =>
          match treeLookup tree pid seg with
          | none => ⟨.error (), m, 1⟩
          | some k =>
              let w := walkSegs tree tnow rest ([] : CMap) k.1 k
              ⟨w.result, cmapSet m seg (CNode.mk k tnow w.cache), 1 + w.queries⟩

/-- The outcome of path2keys at the FS level. -/
structure ResolveOut where
  result : Except Unit (Nat × Nat)
  fs : FS
  queries : Nat

/-- path2keys: the root resolves to (1, 1) immediately, with no query and
no cache traffic; any other path is split into non-empty segments and
walked from the root; the walk's cache mutations persist even on a miss
(the source mutates the dicts in place), and cache_check_gc runs on every
non-root exit. -/
def path2keys (fs : FS) (path : String) : ResolveOut :=
  if path = "/" then ⟨.ok (1, 1), fs, 0⟩
  else
    let w := walkSegs fs.tree fs.now (splitSegments path) fs.cache 1 (1, 1)
    ⟨w.result, cacheCheckGc { fs with cache := w.cache }, w.queries⟩

/-- The inner walk of cache_set: follow the intermediate segments (bailing
out silently when one is missing, stamping those that are found), then
set, update or delete the terminal segment. -/
def cacheSetWalk (tnow : Nat) :
    List String → String → Option (Nat × Nat) → CMap → CMap
  | [], last, value, m =>
      match value with
      | none => cmapErase m last
      | some v =>
          match cmapFind m last with
          | none => cmapSet m last (CNode.mk v tnow ([] : CMap))
          | some (CNode.mk _ _ ch) => cmapSet m last (CNode.mk v tnow ch)
  | seg :: rest, last, value, m =>
      match cmapFind m seg with
      | none => m
      | some (CNode.mk v _lu ch) =>
          cmapSet m seg (CNode.mk v tnow (cacheSetWalk tnow rest last value ch))

/-- cache_set(key, value): value some (tree_id, inode) records the keys of
a path, none deletes them; ends with cache_check_gc.  The callers always
pass a path with at least one segment. -/
def cacheSet (fs : FS) (key : String) (value : Option (Nat × Nat)) : FS :=
  match splitSegments key with
  | [] => cacheCheckGc fs
  | segs =>
      cacheCheckGc
        { fs with cache := cacheSetWalk fs.now segs.dropLast (segs.getLast?.getD "") value fs.cache }

/-- An exception escaping a helper: an OSError with its errno, or any
other exception (IntegrityError, KeyError, TypeError, ZeroDivisionError,
AttributeError).  except_to_status turns an OSError into minus its errno
and anything else into minus the callback's default code. -/
inductive Exc where
  | oserror (code : Int)
  | other
deriving DecidableEq, Repr

/-- except_to_status. -/
def excToStatus (e : Exc) (dflt : Int) : Int :=
  match e with
  | .oserror c => -c
  | .other => -dflt

/-- dbm lookup self.blocks[digest]. -/
def lookupBlock : List (String × Bytes) → String → Option Bytes
  | [], _ => none
  | p :: rest, d => if p.1 = d then some p.2 else lookupBlock rest d

/-- dbm assignment self.blocks[digest] = data (replace or add). -/
def storeBlock : List (String × Bytes) → String → Bytes → List (String × Bytes)
  | [], d, b => [(d, b)]
  | p :: rest, d, b =>
      if p.1 = d then (d, b) :: rest else p :: storeBlock rest d b

/-- Buffer-pool lookup self.buffers[path]. -/
def lookupBuf : List (String × Buf) → String → Option Buf
  | [], _ => none
  | p :: rest, k => if p.1 = k then some p.2 else lookupBuf rest k

/-- Buffer-pool assignment. -/
def setBuf : List (String × Buf) → String → Buf → List (String × Buf)
  | [], k, b => [(k, b)]
  | p :: rest, k, b =>
      if p.1 = k then (k, b) :: rest else p :: setBuf rest k b

/-- del self.buffers[path]. -/
def delBuf (bufs : List (String × Buf)) (k : String) : List (String × Buf) :=
  bufs.filter (fun p => p.1 != k)

/-- UPDATE inodes SET nlinks = nlinks + d WHERE inode = ?. -/
def bumpNlinks (l : List InodeRow) (ino : Nat) (d : Int) : List InodeRow :=
  l.map (fun r => if r.inode == ino then { r with nlinks := r.nlinks + d } else r)

/-- The UNIX permission check of the access helper, applied after the
read-only short-circuit; a missing inode row makes the source subscript
None, raising TypeError (the error case). -/
def accessCheck (fs : FS) (ino : Nat) (flags : Nat) : Except Unit Bool :=
  if fs.read_only && (flags &&& wOK != 0) then .ok false
  else match fs.inodes.find? (fun r => r.inode == ino) with
  | none => .error ()
  | some a =>
      let o := fs.ctxUid == a.uid
      let g := fs.ctxGid == a.gid && !o
      let w := !(o || g)
      let m := a.mode
      .ok (((!(flags &&& rOK != 0)) || (o && (m &&& 256 != 0)) || (g && (m &&& 32 != 0)) || (w && (m &&& 4 != 0)))
        && ((!(flags &&& wOK != 0)) || (o && (m &&& 128 != 0)) || (g && (m &&& 16 != 0)) || (w && (m &&& 2 != 0)))
        && ((!(flags &&& xOK != 0)) || (o && (m &&& 64 != 0)) || (g && (m &&& 8 != 0)) || (w && (m &&& 1 != 0))))

/-- The outcome of collect_garbage and of gc_hook: the faithful model of
the third sweep hits self.execute, an attribute DedupFS does not have,
and raises AttributeError after the first two sweeps took effect. -/
inductive GcOut where
  | ok (fs : FS)
  | attrError (fs : FS)

/-- collect_garbage as written: when GC is enabled and the store is
writable, delete inodes with nlinks = 0, delete index rows whose inode no
longer exists, then fail with AttributeError at self.execute before the
hash/block sweep can run. -/
def collectGarbage (fs : FS) : GcOut :=
  if fs.gc_enabled && !fs.read_only then
    let fs1 := { fs with inodes := fs.inodes.filter (fun r => r.nlinks != 0) }
    let fs2 := { fs1 with
      index := fs1.index.filter (fun r => fs1.inodes.any (fun i => i.inode == r.inode)) }
    .attrError fs2
  else .ok fs

/-- collect_garbage with the third sweep performed through the metadata
connection, the way the spec says it is intended (spec 4.8 and the design
note on the self.execute slip): for every hash row no index row refers
to, delete its block from the store and then the hash row itself. -/
def collectGarbageIntended (fs : FS) : FS :=
  if fs.gc_enabled && !fs.read_only then
    let fs1 := { fs with inodes := fs.inodes.filter (fun r => r.nlinks != 0) }
    let fs2 := { fs1 with
      index := fs1.index.filter (fun r => fs1.inodes.any (fun i => i.inode == r.inode)) }
    let dead := fs2.hashes.filter (fun h => !(fs2.index.any (fun r => r.hash_id == h.1)))
    { fs2 with
      blocks := fs2.blocks.filter (fun p => !(dead.any (fun h => h.2 == p.1))),
      hashes := fs2.hashes.filter (fun h => fs2.index.any (fun r => r.hash_id == h.1)) }
  else fs

/-- gc_hook: skipped for nested calls; bumps opcount; every 500th call
consults the clock and runs collect_garbage when gc_interval elapsed. -/
def gcHook (fs : FS) (nested : Bool) : GcOut :=
  if nested then .ok fs
  else
    let fs1 := { fs with opcount := fs.opcount + 1 }
    if fs1.opcount % 500 = 0 then
      if fs1.gcInterval ≤ fs1.now - fs1.gcHookLastRun then
        match collectGarbage fs1 with
        | .ok f => .ok { f with gcHookLastRun := f.now }
        | .attrError f => .attrError f
      else .ok fs1
    else .ok fs1

/-- The status-and-state translation of the gc_hook call that ends most
mutating callbacks: success keeps the callback's status, an AttributeError
escaping collect_garbage is translated by the callback's handler to minus
its default errno. -/
def gcStatus (st errSt : Int) (go : GcOut) : Int × FS :=
  match go with
  | .ok g => (st, g)
  | .attrError g => (errSt, g)

/-- The two blocks written to the /tmp/dedupfs-collision dump file when a
hash collision is found. -/
structure Dump where
  existingBlock : Bytes
  newBlock : Bytes
deriving DecidableEq, Repr

/-- How a flush can fail: a hash collision (sys.exit(1) after writing the
dump), a KeyError from self.blocks[digest], the OperationalError raised
by verify_write's SELECT from the non-existent blocks table, or the
ZeroDivisionError from size / float(0). -/
inductive FlushError where
  | collision (d : Dump)
  | missingBlock
  | verifyTableMissing
  | zeroBlockSize
deriving DecidableEq, Repr

/-- The slice of the buffer belonging to a block number: buf.seek(bs*nr)
followed by buf.read(bs). -/
def chunkAt (bs : Nat) (B : Bytes) (nr : Nat) : Bytes := (B.drop (bs * nr)).take bs

/-- int(math.ceil(len / float(bs))) as exact natural ceiling division. -/
def numBlocks (bs len : Nat) : Nat := (len + bs - 1) / bs

/-- The loop body of write_blocks over block numbers nr, nr+1, ... with k
iterations left.  An error carries the state as mutated so far: the
connection is in autocommit mode, so those mutations persist. -/
def writeBlocksLoop (ino : Nat) (B : Bytes) :
    Nat → Nat → FS → Except (FlushError × FS) FS
  | _, 0, fs => .ok fs
  | nr, k + 1, fs =>
      let newBlock := chunkAt fs.block_size B nr
      let digest := fs.hashFn newBlock
      match fs.hashes.find? (fun h => h.2 == digest) with
      | some h =>
          match lookupBlock fs.blocks digest with
          | none => .error (.missingBlock, fs)
          | some stored =>
              let existing := fs.decompress stored
              if newBlock = existing then
                writeBlocksLoop ino B (nr + 1) k
                  { fs with index := fs.index ++ [⟨ino, h.1, nr⟩] }
              else .error (.collision ⟨existing, newBlock⟩, fs)
      | none =>
          let hid := fs.nextHashId
          let fs1 := { fs with
            blocks := storeBlock fs.blocks digest (fs.compress newBlock),
            hashes := fs.hashes ++ [(hid, digest)],
            index := fs.index ++ [⟨ino, hid, nr⟩],
            nextHashId := hid + 1, lastRowid := hid }
          if fs1.verify_writes then .error (.verifyTableMissing, fs1)
          else writeBlocksLoop ino B (nr + 1) k fs1

/-- write_blocks: delete the inode's index rows, then chunk the buffer,
dedup each chunk through hashes and the block store, and finally record
the apparent size and a new mtime on the inode row. -/
def writeBlocks (ino : Nat) (buf : Bytes) (asize : Nat) (fs : FS) :
    Except (FlushError × FS) FS :=
  let fs0 := { fs with index := fs.index.filter (fun r => r.inode != ino) }
  if fs0.block_size = 0 then .error (.zeroBlockSize, fs0)
  else
    match writeBlocksLoop ino buf 0 (numBlocks fs0.block_size buf.length) fs0 with
    | .error e => .error e
    | .ok fs1 => .ok { fs1 with
        inodes := fs1.inodes.map (fun r =>
          if r.inode == ino then { r with size := asize, mtime := fs1.now } else r) }

/-- Insertion into a list of index rows ordered by block_nr. -/
def insertByNr (r : IndexRow) : List IndexRow → List IndexRow
  | [] => [r]
  | s :: t => if r.block_nr ≤ s.block_nr then r :: s :: t else s :: insertByNr r t

/-- ORDER BY block_nr ASC. -/
def sortByNr : List IndexRow → List IndexRow
  | [] => []
  | r :: t => insertByNr r (sortByNr t)

/-- SELECT h.hash FROM hashes h, "index" i WHERE i.inode = ? AND
h.id = i.hash_id ORDER BY i.block_nr ASC. -/
def joinedDigests (fs : FS) (ino : Nat) : List String :=
  (sortByNr (fs.index.filter (fun r => r.inode == ino))).filterMap
    (fun r => ((fs.hashes.find? (fun h => h.1 == r.hash_id)).map Prod.snd))

/-- Fetching and decompressing the listed blocks in order; a digest
missing from the store is the KeyError of self.blocks[digest]. -/
def loadBlocks (fs : FS) : List String → Option Bytes
  | [] => some []
  | d :: ds =>
      match lookupBlock fs.blocks d with
      | none => none
      | some b => (loadBlocks fs ds).map (fun rest => fs.decompress b ++ rest)

/-- get_file_buffer: return the open buffer, or populate a fresh one from
the index rows in block order.  Buffer.write is what appends each block,
so a populated non-empty buffer is dirty and its position is at the end. -/
def getFileBuffer (fs : FS) (path : String) : (Except Exc Buf) × FS :=
  match lookupBuf fs.buffers path with
  | some b => (.ok b, fs)
  | none =>
      let r := path2keys fs path
      match r.result with
      | .error _ => (.error (.oserror eNoEnt), r.fs)
      | .ok k =>
          let ds := joinedDigests r.fs k.2
          match loadBlocks r.fs ds with
          | none => (.error .other, r.fs)
          | some content =>
              let b : Buf := ⟨content, content.length, !ds.isEmpty⟩
              (.ok b, { r.fs with buffers := setBuf r.fs.buffers path b })

/-- Buffer.write at the current position: cStringIO overwrites in place,
zero-padding any gap between the end of the data and the position. -/
def bufWrite (data : Bytes) (b : Buf) : Buf :=
  let padded :=
    if b.data.length < b.pos then b.data ++ List.replicate (b.pos - b.data.length) 0
    else b.data
  ⟨padded.take b.pos ++ data ++ padded.drop (b.pos + data.length),
   b.pos + data.length, true⟩

/-- The write callback: fetch the buffer, seek to the offset, write the
data, return its length.  No read-only check appears in the source. -/
def writeOp (fs : FS) (path : String) (data : Bytes) (offset : Nat) : Int × FS :=
  match getFileBuffer fs path with
  | (.error e, fs1) => (excToStatus e eIo, fs1)
  | (.ok b, fs1) =>
      let b1 := bufWrite data { b with pos := offset }
      ((data.length : Int), { fs1 with buffers := setBuf fs1.buffers path b1 })

/-- The read callback: fetch the buffer, seek, read length bytes. -/
def readOp (fs : FS) (path : String) (length offset : Nat) :
    (Except Int Bytes) × FS :=
  match getFileBuffer fs path with
  | (.error e, fs1) => (.error (excToStatus e eIo), fs1)
  | (.ok b, fs1) =>
      let data := (b.data.drop offset).take length
      let b1 := { b with pos := offset + data.length }
      (.ok data, { fs1 with buffers := setBuf fs1.buffers path b1 })

/-- The outcome of a callback that can call sys.exit: either a FUSE
status with the surviving state, or process termination with an exit code,
the collision dump that was written, and the state left behind. -/
inductive CallResult where
  | ret (status : Int) (fs : FS)
  | exited (code : Nat) (dump : Dump) (fs : FS)

/-- The status of a CallResult, minus one thousand for a terminated
process (release never returns that value to FUSE). -/
def CallResult.status : CallResult → Int
  | .ret s _ => s
  | .exited _ _ _ => -1000

/-- The state carried by a CallResult. -/
def CallResult.fs : CallResult → FS
  | .ret _ f => f
  | .exited _ _ f => f

/-- The collision dump of a CallResult, when the process terminated. -/
def CallResult.dump : CallResult → Option Dump
  | .ret _ _ => none
  | .exited _ d _ => some d

/-- The gc_hook tail of release: on success the buffer is closed and
dropped; an AttributeError escaping collect_garbage reaches release's
handler, which returns minus EIO with the buffer still in the pool. -/
def gcRelease (path : String) (go : GcOut) : CallResult :=
  match go with
  | .ok g => .ret 0 { g with buffers := delBuf g.buffers path }
  | .attrError g => .ret (-eIo) g

/-- The release callback: a dirty buffer is flushed through write_blocks;
a collision terminates the process with the state as mutated (SystemExit
is not an Exception, so the rollback handler does not run, and the
autocommit connection would keep the mutations anyway); other flush
errors return minus EIO with the buffer kept; a clean or flushed buffer
is closed and dropped. -/
def releaseOp (fs : FS) (path : String) : CallResult :=
  match lookupBuf fs.buffers path with
  | none => .ret 0 fs
  | some b =>
      if b.dirty then
        let r := path2keys fs path
        match r.result with
        | .error _ => .ret (-eNoEnt) r.fs
        | .ok k =>
            let asize := b.data.length
            match writeBlocks k.2 b.data asize r.fs with
            | .error (.collision d, f) => .exited 1 d f
            | .error (_, f) => .ret (-eIo) f
            | .ok f => gcRelease path (gcHook f false)
      else .ret 0 { fs with buffers := delBuf fs.buffers path }

/-- The access callback: resolve, then permission-check unless the mask
is existence-only; a failed check returns minus EACCES. -/
def accessOp (fs : FS) (path : String) (flags : Nat) : Int × FS :=
  let r := path2keys fs path
  match r.result with
  | .error _ => (-eNoEnt, r.fs)
  | .ok k =>
      if flags ≠ fOK then
        match accessCheck r.fs k.2 flags with
        | .error _ => (-eNoEnt, r.fs)
        | .ok false => (-eAccess, r.fs)
        | .ok true => (0, r.fs)
      else (0, r.fs)

/-- The chmod callback. -/
def chmodOp (fs : FS) (path : String) (mode : Nat) : Int × FS :=
  if fs.read_only then (-eRofs, fs)
  else
    let r := path2keys fs path
    match r.result with
    | .error _ => (-eNoEnt, r.fs)
    | .ok k =>
        let fs1 := { r.fs with inodes := r.fs.inodes.map (fun i =>
          if i.inode == k.2 then { i with mode := mode } else i) }
        gcStatus 0 (-eIo) (gcHook fs1 false)

/-- The chown callback. -/
def chownOp (fs : FS) (path : String) (uid gid : Nat) : Int × FS :=
  if fs.read_only then (-eRofs, fs)
  else
    let r := path2keys fs path
    match r.result with
    | .error _ => (-eNoEnt, r.fs)
    | .ok k =>
        let fs1 := { r.fs with inodes := r.fs.inodes.map (fun i =>
          if i.inode == k.2 then { i with uid := uid, gid := gid } else i) }
        gcStatus 0 (-eIo) (gcHook fs1 false)

/-- The utime callback. -/
def utimeOp (fs : FS) (path : String) (atime mtime : Nat) : Int × FS :=
  if fs.read_only then (-eRofs, fs)
  else
    let r := path2keys fs path
    match r.result with
    | .error _ => (-eNoEnt, r.fs)
    | .ok k =>
        let fs1 := { r.fs with inodes := r.fs.inodes.map (fun i =>
          if i.inode == k.2 then { i with atime := atime, mtime := mtime } else i) }
        gcStatus 0 (-eNoEnt) (gcHook fs1 false)

/-- The utimens callback (the nanosecond pair is already merged into the
per-field timestamps the row stores). -/
def utimensOp (fs : FS) (path : String) (atime mtime : Nat) : Int × FS :=
  if fs.read_only then (-eRofs, fs)
  else
    let r := path2keys fs path
    match r.result with
    | .error _ => (-eNoEnt, r.fs)
    | .ok k =>
        let fs1 := { r.fs with inodes := r.fs.inodes.map (fun i =>
          if i.inode == k.2 then { i with atime := atime, mtime := mtime } else i) }
        gcStatus 0 (-eNoEnt) (gcHook fs1 false)

/-- The insert helper: resolve the parent, insert the inode row (nlinks 2
for a directory mode, else 1, owner from the calling context), then the
tree row, then record the keys in the cache.  A duplicate (parent_id,
name) violates the unique index: IntegrityError, raised after the inode
row was already inserted and, on autocommit, kept. -/
def insertCore (fs : FS) (path : String) (mode size rdev : Nat) :
    Except (Exc × FS) (Nat × Nat × FS) :=
  let pr := splitPath path
  let r := path2keys fs pr.1
  match r.result with
  | .error _ => .error (.oserror eNoEnt, r.fs)
  | .ok k =>
      let nl : Int := if mode &&& sIFDIR != 0 then 2 else 1
      let ino := r.fs.nextInode
      let newRow : InodeRow :=
        ⟨ino, nl, mode, r.fs.ctxUid, r.fs.ctxGid, rdev, size, r.fs.now, r.fs.now, r.fs.now⟩
      let fs1 := { r.fs with
        inodes := r.fs.inodes ++ [newRow],
        nextInode := ino + 1, lastRowid := ino }
      if fs1.tree.any (fun t => t.parent_id == some k.1 && t.name == pr.2) then
        .error (.other, fs1)
      else
        let tid := fs1.nextTreeId
        let newTreeRow : TreeRow := ⟨tid, some k.1, pr.2, ino⟩
        let fs2 := { fs1 with
          tree := fs1.tree ++ [newTreeRow],
          nextTreeId := tid + 1, lastRowid := tid }
        .ok (ino, k.2, cacheSet fs2 path (some (tid, ino)))

/-- The remove helper: resolve, optionally reject a non-empty directory,
clear the cache entry, delete the tree row, decrement nlinks. -/
def removeCore (fs : FS) (path : String) (checkEmpty : Bool) :
    Except (Exc × FS) FS :=
  let r := path2keys fs path
  match r.result with
  | .error _ => .error (.oserror eNoEnt, r.fs)
  | .ok k =>
      if checkEmpty && !(r.fs.tree.filter (fun t => t.parent_id == some k.1)).isEmpty then
        .error (.oserror eNotEmpty, r.fs)
      else
        let fs1 := cacheSet r.fs path none
        let fs2 := { fs1 with tree := fs1.tree.filter (fun t => t.id != k.1) }
        .ok { fs2 with inodes := bumpNlinks fs2.inodes k.2 (-1) }

/-- The body of the link callback: resolve the target and the parent of
the link path, insert a tree row sharing the target's inode, increment
its nlinks, record the new path in the cache. -/
def linkCore (fs : FS) (targetPath linkPath : String) : Except (Exc × FS) FS :=
  let rt := path2keys fs targetPath
  match rt.result with
  | .error _ => .error (.oserror eNoEnt, rt.fs)
  | .ok kt =>
      let lp := splitPath linkPath
      let rp := path2keys rt.fs lp.1
      match rp.result with
      | .error _ => .error (.oserror eNoEnt, rp.fs)
      | .ok kp =>
          if rp.fs.tree.any (fun t => t.parent_id == some kp.1 && t.name == lp.2) then
            .error (.other, rp.fs)
          else
            let tid := rp.fs.nextTreeId
            let newTreeRow : TreeRow := ⟨tid, some kp.1, lp.2, kt.2⟩
            let fs1 := { rp.fs with
              tree := rp.fs.tree ++ [newTreeRow],
              nextTreeId := tid + 1, lastRowid := tid }
            let fs2 := { fs1 with inodes := bumpNlinks fs1.inodes kt.2 1 }
            .ok (cacheSet fs2 linkPath (some (tid, kt.2)))

/-- The mkdir callback: insert with the directory bit and size 4096, then
increment the parent inode's nlinks. -/
def mkdirOp (fs : FS) (path : String) (mode : Nat) : Int × FS :=
  if fs.read_only then (-eRofs, fs)
  else match insertCore fs path (mode ||| sIFDIR) 4096 0 with
  | .error (e, f) => (excToStatus e eIo, f)
  | .ok (_, pino, f) =>
      let f1 := { f with inodes := bumpNlinks f.inodes pino 1 }
      gcStatus 0 (-eIo) (gcHook f1 false)

/-- The mknod callback. -/
def mknodOp (fs : FS) (path : String) (mode rdev : Nat) : Int × FS :=
  if fs.read_only then (-eRofs, fs)
  else match insertCore fs path mode 0 rdev with
  | .error (e, f) => (excToStatus e eIo, f)
  | .ok (_, _, f) => gcStatus 0 (-eIo) (gcHook f false)

/-- The symlink callback: an inode with link_mode and the target's length
as size, plus a row in the links table. -/
def symlinkOp (fs : FS) (target linkPath : String) : Int × FS :=
  if fs.read_only then (-eRofs, fs)
  else match insertCore fs linkPath linkMode target.length 0 with
  | .error (e, f) => (excToStatus e eIo, f)
  | .ok (ino, _, f) =>
      let f1 := { f with links := f.links ++ [(ino, target)] }
      gcStatus 0 (-eIo) (gcHook f1 false)

/-- The link callback (non-nested entry). -/
def linkOp (fs : FS) (targetPath linkPath : String) : Int × FS :=
  if fs.read_only then (-eRofs, fs)
  else match linkCore fs targetPath linkPath with
  | .error (e, f) => (excToStatus e eIo, f)
  | .ok f => gcStatus 0 (-eIo) (gcHook f false)

/-- The unlink callback (non-nested entry; the source falls off the end,
returning None, which FUSE takes as success). -/
def unlinkOp (fs : FS) (path : String) : Int × FS :=
  if fs.read_only then (-eRofs, fs)
  else match removeCore fs path false with
  | .error (e, f) => (excToStatus e eNoEnt, f)
  | .ok f => (0, f)

/-- The rmdir callback: remove with the emptiness check, then decrement
the parent inode's nlinks. -/
def rmdirOp (fs : FS) (path : String) : Int × FS :=
  if fs.read_only then (-eRofs, fs)
  else match removeCore fs path true with
  | .error (e, f) => (excToStatus e eNoEnt, f)
  | .ok f =>
      let r := path2keys f (splitPath path).1
      match r.result with
      | .error _ => (-eNoEnt, r.fs)
      | .ok k => (0, { r.fs with inodes := bumpNlinks r.fs.inodes k.2 (-1) })

/-- The rename callback: unlink the target (ignoring a missing one), link
the old path under the new name, unlink the old path; the nested
sub-operations re-raise into rename's handler, whose default code is
ENOENT. -/
def renameOp (fs : FS) (oldPath newPath : String) : Int × FS :=
  if fs.read_only then (-eRofs, fs)
  else
    let step1 : Except (Exc × FS) FS :=
      match removeCore fs newPath false with
      | .error (.oserror c, f) =>
          if c = eNoEnt then .ok f else .error (.oserror c, f)
      | .error (e, f) => .error (e, f)
      | .ok f => .ok f
    match step1 with
    | .error (e, f) => (excToStatus e eNoEnt, f)
    | .ok f1 =>
        match linkCore f1 oldPath newPath with
        | .error (e, f) => (excToStatus e eNoEnt, f)
        | .ok f2 =>
            match removeCore f2 oldPath false with
            | .error (e, f) => (excToStatus e eNoEnt, f)
            | .ok f3 => gcStatus 0 (-eNoEnt) (gcHook f3 false)

/-- The truncate callback: delete the index rows with block_nr strictly
greater than size divided by block_size and store the new size. -/
def truncateOp (fs : FS) (path : String) (size : Nat) : Int × FS :=
  if fs.read_only then (-eRofs, fs)
  else
    let r := path2keys fs path
    match r.result with
    | .error _ => (-eNoEnt, r.fs)
    | .ok k =>
        if r.fs.block_size = 0 then (-eNoEnt, r.fs)
        else
          let lastBlock := size / r.fs.block_size
          let keptRows := r.fs.index.filter
            (fun t => !(t.inode == k.2 && decide (lastBlock < t.block_nr)))
          let fs1 := { r.fs with index := keptRows }
          let fs2 := { fs1 with inodes := fs1.inodes.map (fun i =>
            if i.inode == k.2 then { i with size := size } else i) }
          gcStatus 0 (-eNoEnt) (gcHook fs2 false)

/-- The access-flag computation and check of the open callback.  Note
os.O_RDONLY is zero, so the read bit is demanded exactly when O_RDWR is
set, and the write bit when O_WRONLY or O_RDWR is. -/
def openAccess (fs : FS) (ino flags : Nat) : Except (Exc × FS) (Int × FS) :=
  let aflags := (if flags &&& 2 != 0 then rOK else 0) |||
                (if flags &&& 3 != 0 then wOK else 0)
  match accessCheck fs ino aflags with
  | .error _ => .error (.other, fs)
  | .ok false => .ok (-eAccess, fs)
  | .ok true => .ok (0, fs)

/-- The open callback in nested mode, as create drives it: resolve unless
an inode was handed in, then permission-check. -/
def openCore (fs : FS) (path : String) (flags : Nat) (inodeOpt : Option Nat) :
    Except (Exc × FS) (Int × FS) :=
  match inodeOpt with
  | some ino => openAccess fs ino flags
  | none =>
      let r := path2keys fs path
      match r.result with
      | .error _ => .error (.oserror eNoEnt, r.fs)
      | .ok k => openAccess r.fs k.2 flags

/-- The create callback: open an existing file, or on ENOENT insert a
fresh inode and open that. -/
def createOp (fs : FS) (path : String) (mode flags : Nat) : Int × FS :=
  if fs.read_only then (-eRofs, fs)
  else
    let afterOpen : Except (Exc × FS) (Int × FS) :=
      match openCore fs path flags none with
      | .ok s => .ok s
      | .error (.oserror c, f) =>
          if c = eNoEnt then
            match insertCore f path mode 0 0 with
            | .error e => .error e
            | .ok (ino, _, f1) => openCore f1 path flags (some ino)
          else .error (.oserror c, f)
      | .error (e, f) => .error (e, f)
    match afterOpen with
    | .error (e, f) => (excToStatus e eIo, f)
    | .ok (st, f) => gcStatus st (-eIo) (gcHook f false)

/-- The persisted create-time options and the mount's current choice of
them, as fsinit holds them before get_opts_from_db runs. -/
structure Opts where
  synchronous : Bool
  block_size : Nat
  compression_method : String
  hash_function : String
deriving DecidableEq, Repr

/-- The warnings get_opts_from_db can log. -/
inductive OptWarning where
  | blockSizeIgnored (cli db : Nat)
  | compressIgnored (cli db : String)
  | hashIgnored (cli db : String)
deriving DecidableEq, Repr

/-- int(value) on the TEXT column (the stored values are decimal
numerals). -/
def parseIntText (s : String) : Nat :=
  s.data.foldl (fun a c => a * 10 + (c.toNat - 48)) 0

/-- One iteration of get_opts_from_db's row loop.  cliSync is
options.synchronous, the untouched command-line namespace value. -/
def getOptsRow (cliSync : Bool) (acc : Opts × List OptWarning)
    (row : String × String) : Opts × List OptWarning :=
  let o := acc.1
  let ws := acc.2
  if row.1 = "synchronous" then
    ({ o with synchronous := (parseIntText row.2 != 0) && cliSync }, ws)
  else if row.1 = "block_size" then
    let v := parseIntText row.2
    if v ≠ o.block_size then
      ({ o with block_size := v }, ws ++ [.blockSizeIgnored o.block_size v])
    else (o, ws)
  else if row.1 = "compression_method" then
    if row.2 ≠ o.compression_method then
      (({ o with compression_method := row.2 }),
        if o.compression_method ≠ "none" then
          ws ++ [.compressIgnored o.compression_method row.2]
        else ws)
    else (o, ws)
  else if row.1 = "hash_function" then
    if row.2 ≠ o.hash_function then
      ({ o with hash_function := row.2 }, ws ++ [.hashIgnored o.hash_function row.2])
    else (o, ws)
  else (o, ws)

/-- get_opts_from_db over the rows of SELECT name, value FROM options. -/
def getOptsFromDb (rows : List (String × String)) (o : Opts) :
    Opts × List OptWarning :=
  rows.foldl (getOptsRow o.synchronous) (o, [])

/-- The canonical options table init_metastore writes, in insertion
order. -/
def optionRows (sync : String) (bs : String) (cm : String) (hf : String) :
    List (String × String) :=
  [("synchronous", sync), ("block_size", bs),
   ("compression_method", cm), ("hash_function", hf)]

/-- The state right after init_metastore on an empty store: the root tree
row (1, NULL, empty name, 1) and the root inode with dir mode 0755,
nlinks 2, size 4096. -/
def mkInitFS (bs : Nat) (hf : Bytes → String) (uid gid t : Nat) : FS :=
  { block_size := bs, hashFn := hf,
    compress := fun b => b, decompress := fun b => b,
    tree := [⟨1, none, "", 1⟩],
    inodes := [⟨1, 2, rootMode, uid, gid, 0, 4096, t, t, t⟩],
    links := [], hashes := [], index := [], blocks := [], buffers := [],
    cache := ([] : CMap),
    read_only := false, use_transactions := true, gc_enabled := true,
    verify_writes := false,
    nextInode := 2, nextTreeId := 2, nextHashId := 1, lastRowid := 0,
    opcount := 0, cacheRequests := 0, cacheGcLastRun := t,
    gcHookLastRun := t, cacheTimeout := 60, gcInterval := 60,
    now := t, ctxUid := uid, ctxGid := gid }

/-- Resolution as the spec words it (4.5): split into non-empty segments,
walk from the root, descend via the cached child when present, otherwise
query tree by (parent_id, name); a missing row is no-such-entry.  This
definition follows the spec's text and is compared with path2keys. -/
def resolveSpecGo (tree : List TreeRow) :
    List String → CMap → Nat × Nat → Except Unit (Nat × Nat)
  | [], _, cur => .ok cur
  | seg :: rest, m, cur =>
      match cmapFind m seg with
      | some n => resolveSpecGo tree rest n.children n.value
      | none =>
          match treeLookup tree cur.1 seg with
          | none => .error ()
          | some k => resolveSpecGo tree rest ([] : CMap) k

/-- Spec resolution at the path level: the root resolves to (1, 1)
without a query. -/
def resolvePathSpec (tree : List TreeRow) (cache : CMap) (path : String) :
    Except Unit (Nat × Nat) :=
  if path = "/" then .ok (1, 1)
  else resolveSpecGo tree (splitSegments path) cache (1, 1)

/-- The directory bit test mode AND S_IFDIR. -/
def isDirMode (m : Nat) : Bool := m &&& sIFDIR != 0

/-- count(tree where inode = i). -/
def treeCount (fs : FS) (ino : Nat) : Nat :=
  (fs.tree.filter (fun r => r.inode == ino)).length

/-- The mode column of an inode row (zero when the row is absent). -/
def modeOf (fs : FS) (ino : Nat) : Nat :=
  ((fs.inodes.find? (fun r => r.inode == ino)).map InodeRow.mode).getD 0

/-- Whether a tree row is a directory entry whose parent row belongs to
the given inode: the ".." accounting a directory contributes to its
parent. -/
def dirChildOf (fs : FS) (ino : Nat) (r : TreeRow) : Bool :=
  (match r.parent_id with
   | some p => fs.tree.any (fun q => q.inode == ino && q.id == p)
   | none => false) && isDirMode (modeOf fs r.inode)

/-- The number of directory-entry rows hanging under the inode's rows. -/
def dirChildCount (fs : FS) (ino : Nat) : Nat :=
  (fs.tree.filter (dirChildOf fs ino)).length

/-- The link-count formula claim C4 states: nlinks equal to the tree-row
count plus two for directories. -/
def claimedLinkInv (fs : FS) : Prop :=
  ∀ r ∈ fs.inodes, r.nlinks =
    (treeCount fs r.inode : Int) + (if isDirMode r.mode then 2 else 0)

/-- The link-count equality the code actually maintains: nlinks equals
the tree-row count, plus, for a directory, one (its own "." ) and one per
directory entry below it (each child's ".."). -/
def linkInv (fs : FS) : Prop :=
  ∀ r ∈ fs.inodes, r.nlinks =
    (treeCount fs r.inode : Int) +
      (if isDirMode r.mode then 1 + (dirChildCount fs r.inode : Int) else 0)

/-- Well-formedness the SQLite schema guarantees: primary keys are unique,
ids are below the allocation counters, and parent references point below
the tree-id counter. -/
def wfFS (fs : FS) : Prop :=
  (fs.inodes.map InodeRow.inode).Nodup ∧
  (fs.tree.map TreeRow.id).Nodup ∧
  (∀ r ∈ fs.inodes, r.inode < fs.nextInode) ∧
  (∀ t ∈ fs.tree, t.inode < fs.nextInode) ∧
  (∀ t ∈ fs.tree, t.id < fs.nextTreeId) ∧
  (∀ t ∈ fs.tree, ∀ p, t.parent_id = some p → p < fs.nextTreeId) ∧
  (fs.hashes.map Prod.fst).Nodup ∧
  (∀ h ∈ fs.hashes, h.1 < fs.nextHashId)

/-- The state carried by a GcOut. -/
def GcOut.fsOf : GcOut → FS
  | .ok f => f
  | .attrError f => f

/-- Whether collect_garbage raised. -/
def GcOut.raised : GcOut → Bool
  | .ok _ => false
  | .attrError _ => true

/-- Whether the callback terminated the process. -/
def CallResult.exitedQ : CallResult → Bool
  | .ret _ _ => false
  | .exited _ _ _ => true

/-- Everything in the state outside the path cache, its bookkeeping
counters, and the buffer pool; the helpers that only touch those parts
are proved to preserve the core. -/
structure Core where
  block_size : Nat
  hashFn : Bytes → String
  compress : Bytes → Bytes
  decompress : Bytes → Bytes
  tree : List TreeRow
  inodes : List InodeRow
  links : List (Nat × String)
  hashes : List (Nat × String)
  index : List IndexRow
  blocks : List (String × Bytes)
  read_only : Bool
  use_transactions : Bool
  gc_enabled : Bool
  verify_writes : Bool
  nextInode : Nat
  nextTreeId : Nat
  nextHashId : Nat
  lastRowid : Nat
  opcount : Nat
  gcHookLastRun : Nat
  cacheTimeout : Nat
  gcInterval : Nat
  now : Nat
  ctxUid : Nat
  ctxGid : Nat

/-- Projection of a state onto its core. -/
def FS.core (fs : FS) : Core :=
  ⟨fs.block_size, fs.hashFn, fs.compress, fs.decompress, fs.tree,
   fs.inodes, fs.links, fs.hashes, fs.index, fs.blocks, fs.read_only,
   fs.use_transactions, fs.gc_enabled, fs.verify_writes, fs.nextInode,
   fs.nextTreeId, fs.nextHashId, fs.lastRowid, fs.opcount,
   fs.gcHookLastRun, fs.cacheTimeout, fs.gcInterval, fs.now, fs.ctxUid,
   fs.ctxGid⟩

/-- A sequence of write callbacks on one path. -/
def applyWrites (fs : FS) (path : String) : List (Nat × Bytes) → FS
  | [] => fs
  | w :: rest => applyWrites (writeOp fs path w.2 w.1).2 path rest

/-- The concatenation of the k block slices starting at block nr. -/
def chunksFrom (bs : Nat) (B : Bytes) : Nat → Nat → Bytes
  | _, 0 => []
  | nr, k + 1 => chunkAt bs B nr ++ chunksFrom bs B (nr + 1) k

/-- The list of the k block slices starting at block nr. -/
def chunkList (bs : Nat) (B : Bytes) : Nat → Nat → List Bytes
  | _, 0 => []
  | nr, k + 1 => chunkAt bs B nr :: chunkList bs B (nr + 1) k

/-- The index rows a flush writes for an inode: consecutive block numbers
paired with the hash ids the loop picked. -/
def flushRows (ino : Nat) : Nat → List Nat → List IndexRow
  | _, [] => []
  | nr, hid :: hs => ⟨ino, hid, nr⟩ :: flushRows ino (nr + 1) hs

/-- After a flush, each written row's hash id resolves to a digest whose
stored block decompresses to the very slice of the buffer the row is for. -/
def goodRows (f : FS) (B : Bytes) : Nat → List Nat → Prop
  | _, [] => True
  | nr, hid :: hs =>
      (∃ d, ((f.hashes.find? (fun h => h.1 == hid)).map Prod.snd) = some d ∧
        ((lookupBlock f.blocks d).map f.decompress) =
          some (chunkAt f.block_size B nr)) ∧
      goodRows f B (nr + 1) hs

/-- A resolution result names an actual tree row; the coherence the path
cache maintains, taken as a hypothesis where an operation's bookkeeping
depends on it. -/
def resSound (fs : FS) (p : String) : Prop :=
  ∀ k, (path2keys fs p).result = .ok k →
    ∃ q, q ∈ fs.tree ∧ q.id = k.1 ∧ q.inode = k.2

/-- A resolution result is a directory inode. -/
def resDir (fs : FS) (p : String) : Prop :=
  ∀ k, (path2keys fs p).result = .ok k → isDirMode (modeOf fs k.2) = true

/-- A resolution result is not a directory inode. -/
def resNonDir (fs : FS) (p : String) : Prop :=
  ∀ k, (path2keys fs p).result = .ok k → isDirMode (modeOf fs k.2) = false

/-- A cache chain for the given segments ending in the given keys, every
node of which carries the given last-used stamp; what a resolution walk
leaves behind, and what the timeout sweep can never delete at the same
instant. -/
def chainStamped (t : Nat) : CMap → List String → (Nat × Nat) → Prop
  | _, [], _ => False
  | m, [s], k => ∃ n, cmapFind m s = some n ∧ n.value = k ∧ n.lastUsed = t
  | m, s :: r :: rs, k =>
      ∃ n, cmapFind m s = some n ∧ n.lastUsed = t ∧
        chainStamped t n.children (r :: rs) k

/-- The state a remove helper leaves behind, whether it succeeded or
raised. -/
def removedState (fs : FS) (path : String) (checkEmpty : Bool) : FS :=
  match removeCore fs path checkEmpty with
  | .ok f => f
  | .error (_, f) => f

/-- One lowercase hex digit. -/
def hexDigit (n : Nat) : Char :=
  Char.ofNat (if n < 10 then 48 + n else 87 + n)

/-- The state a write_blocks call leaves behind, whether it succeeded or
raised. -/
def flushedState (e : Except (FlushError × FS) FS) : FS :=
  match e with
  | .ok f => f
  | .error (_, f) => f

/-- Everything the write_blocks loop guarantees about its final state f
when it runs from state fs at block nr with k blocks to go: the fields it
never touches, how the hashes table grew (news), that the stored blocks
of previously known digests are untouched, and that the index rows it
wrote (flushRows over hids) resolve back to the very slices they were
made from. -/
structure LoopOut (ino : Nat) (B : Bytes) (nr k : Nat) (fs f : FS)
    (news : List (Nat × String)) (hids : List Nat) : Prop where
  blockSizeEq : f.block_size = fs.block_size
  hashFnEq : f.hashFn = fs.hashFn
  compressEq : f.compress = fs.compress
  decompressEq : f.decompress = fs.decompress
  buffersEq : f.buffers = fs.buffers
  inodesEq : f.inodes = fs.inodes
  treeEq : f.tree = fs.tree
  hashesEq : f.hashes = fs.hashes ++ news
  newsIdsGe : ∀ h ∈ news, fs.nextHashId ≤ h.1
  nextGe : fs.nextHashId ≤ f.nextHashId
  idsNodup : (f.hashes.map Prod.fst).Nodup
  idsLt : ∀ h ∈ f.hashes, h.1 < f.nextHashId
  newsDigestsIn : ∀ d ∈ news.map Prod.snd,
    d ∈ (chunkList fs.block_size B nr k).map fs.hashFn ∧
      d ∉ fs.hashes.map Prod.snd
  newsDigestsNodup : (news.map Prod.snd).Nodup
  blocksStable : ∀ d ∈ fs.hashes.map Prod.snd,
    lookupBlock f.blocks d = lookupBlock fs.blocks d
  hidsLen : hids.length = k
  indexEq : f.index = fs.index ++ flushRows ino nr hids
  good : goodRows f B nr hids
  allDigestsIn : ∀ d ∈ (chunkList fs.block_size B nr k).map fs.hashFn,
    d ∈ f.hashes.map Prod.snd

/-- An injective stand-in digest used by the concrete scenarios: the hex
spelling of the block, as hexdigest() would give (the scenarios do not
depend on the particular collision-free algorithm the mount selects). -/
def hashConcat (b : Bytes) : String :=
  String.mk (b.flatMap (fun n => [hexDigit (n / 16), hexDigit (n % 16)]))

/-- A fresh mount with block_size 4, as scenario 1 of the spec sets up. -/
def fsZero : FS := mkInitFS 4 hashConcat 1000 1000 100

/-- The bytes of the scenario literal for C1. -/
def helloBytes : Bytes := [104, 101, 108, 108, 111, 32, 119, 111, 114, 108, 100, 33]

/-- The bytes of the scenario literal for C2. -/
def abcdBytes : Bytes := [97, 98, 99, 100]

/-- C1 scenario, step 1: create /a mode 0100644 with O_RDWR. -/
def c1Created : FS := (createOp fsZero "/a" 33188 2).2

/-- C1 scenario, step 2: write the twelve bytes at offset 0. -/
def c1Written : FS := (writeOp c1Created "/a" helloBytes 0).2

/-- C1 scenario, step 3: release. -/
def c1Released : FS := (releaseOp c1Written "/a").fs

/-- C2 scenario states: abcdabcd to /x, abcd to /y, both released. -/
def c2s1 : FS := (createOp fsZero "/x" 33188 2).2

/-- C2 scenario, write to /x. -/
def c2s2 : FS := (writeOp c2s1 "/x" (abcdBytes ++ abcdBytes) 0).2

/-- C2 scenario, release /x. -/
def c2s3 : FS := (releaseOp c2s2 "/x").fs

/-- C2 scenario, create /y. -/
def c2s4 : FS := (createOp c2s3 "/y" 33188 2).2

/-- C2 scenario, write to /y. -/
def c2s5 : FS := (writeOp c2s4 "/y" abcdBytes 0).2

/-- C2 scenario, release /y. -/
def c2Final : FS := (releaseOp c2s5 "/y").fs

/-- A mount whose hasher returns a constant digest, as scenario 6 of the
spec injects. -/
def fsConstHash : FS := mkInitFS 4 (fun _ => "00") 1000 1000 100

/-- Collision scenario: aaaa written to /f and flushed. -/
def colStage1 : FS :=
  (releaseOp (writeOp (createOp fsConstHash "/f" 33188 2).2 "/f" [97, 97, 97, 97] 0).2 "/f").fs

/-- Collision scenario: bbbb written over the reopened /f. -/
def colStage2 : FS := (writeOp colStage1 "/f" [98, 98, 98, 98] 0).2

/-- C4 counterexample state: a directory freshly created by mkdir. -/
def fsDirD : FS := (mkdirOp fsZero "/d" 493).2

/-- C5 failing input: a hashes row (and its block) that no index row
references. -/
def fsOrphanHash : FS :=
  { fsZero with hashes := [(1, "dd")], blocks := [("dd", [7, 7])] }

/-- C6 counterexample state: a read-only mount with an open buffer. -/
def fsRoBuf : FS :=
  { fsZero with read_only := true, buffers := [("/a", ⟨[], 0, false⟩)] }

/-- C7 counterexample state: a read-only mount. -/
def fsRo : FS := { fsZero with read_only := true }

/-- C10 witness state: an 8-byte file /a stored in two blocks. -/
def fsTrunc : FS :=
  { fsZero with
    tree := [⟨1, none, "", 1⟩, ⟨2, some 1, "a", 2⟩],
    inodes := [⟨1, 2, rootMode, 1000, 1000, 0, 4096, 100, 100, 100⟩,
               ⟨2, 1, 33188, 1000, 1000, 0, 8, 100, 100, 100⟩],
    hashes := [(1, "b0"), (2, "b1")],
    index := [⟨2, 1, 0⟩, ⟨2, 2, 1⟩],
    blocks := [("b0", [1, 1, 1, 1]), ("b1", [2, 2, 2, 2])],
    nextInode := 3, nextTreeId := 3, nextHashId := 3 }

/-! ### Infrastructure lemmas: which parts of the state the helpers leave
alone. -/

theorem cacheCheckGc_core (fs : FS) : (cacheCheckGc fs).core = fs.core := by
  unfold cacheCheckGc
  dsimp only
  split
  · split <;> rfl
  · rfl

theorem cacheCheckGc_buffers (fs : FS) :
    (cacheCheckGc fs).buffers = fs.buffers := by
  unfold cacheCheckGc
  dsimp only
  split
  · split <;> rfl
  · rfl

theorem cacheSet_core (fs : FS) (k : String) (v : Option (Nat × Nat)) :
    (cacheSet fs k v).core = fs.core := by
  unfold cacheSet
  split
  · exact cacheCheckGc_core fs
  · rw [cacheCheckGc_core]
    rfl

theorem cacheSet_buffers (fs : FS) (k : String) (v : Option (Nat × Nat)) :
    (cacheSet fs k v).buffers = fs.buffers := by
  unfold cacheSet
  split
  · exact cacheCheckGc_buffers fs
  · rw [cacheCheckGc_buffers]

theorem path2keys_core (fs : FS) (p : String) :
    ((path2keys fs p).fs).core = fs.core := by
  unfold path2keys
  split
  · rfl
  · dsimp only
    rw [cacheCheckGc_core]
    rfl

theorem path2keys_buffers (fs : FS) (p : String) :
    ((path2keys fs p).fs).buffers = fs.buffers := by
  unfold path2keys
  split
  · rfl
  · dsimp only
    rw [cacheCheckGc_buffers]

theorem core_block_size {a b : FS} (h : a.core = b.core) :
    a.block_size = b.block_size := congrArg Core.block_size h

theorem core_hashFn {a b : FS} (h : a.core = b.core) : a.hashFn = b.hashFn :=
  congrArg Core.hashFn h

theorem core_compress {a b : FS} (h : a.core = b.core) :
    a.compress = b.compress := congrArg Core.compress h

theorem core_decompress {a b : FS} (h : a.core = b.core) :
    a.decompress = b.decompress := congrArg Core.decompress h

theorem core_tree {a b : FS} (h : a.core = b.core) : a.tree = b.tree :=
  congrArg Core.tree h

theorem core_inodes {a b : FS} (h : a.core = b.core) : a.inodes = b.inodes :=
  congrArg Core.inodes h

theorem core_links {a b : FS} (h : a.core = b.core) : a.links = b.links :=
  congrArg Core.links h

theorem core_hashes {a b : FS} (h : a.core = b.core) : a.hashes = b.hashes :=
  congrArg Core.hashes h

theorem core_index {a b : FS} (h : a.core = b.core) : a.index = b.index :=
  congrArg Core.index h

theorem core_blocks {a b : FS} (h : a.core = b.core) : a.blocks = b.blocks :=
  congrArg Core.blocks h

theorem core_read_only {a b : FS} (h : a.core = b.core) :
    a.read_only = b.read_only := congrArg Core.read_only h

theorem core_gc_enabled {a b : FS} (h : a.core = b.core) :
    a.gc_enabled = b.gc_enabled := congrArg Core.gc_enabled h

theorem core_verify_writes {a b : FS} (h : a.core = b.core) :
    a.verify_writes = b.verify_writes := congrArg Core.verify_writes h

theorem core_nextInode {a b : FS} (h : a.core = b.core) :
    a.nextInode = b.nextInode := congrArg Core.nextInode h

theorem core_nextTreeId {a b : FS} (h : a.core = b.core) :
    a.nextTreeId = b.nextTreeId := congrArg Core.nextTreeId h

theorem core_nextHashId {a b : FS} (h : a.core = b.core) :
    a.nextHashId = b.nextHashId := congrArg Core.nextHashId h

theorem core_now {a b : FS} (h : a.core = b.core) : a.now = b.now :=
  congrArg Core.now h

theorem core_ctxUid {a b : FS} (h : a.core = b.core) : a.ctxUid = b.ctxUid :=
  congrArg Core.ctxUid h

theorem core_ctxGid {a b : FS} (h : a.core = b.core) : a.ctxGid = b.ctxGid :=
  congrArg Core.ctxGid h

theorem gcHook_ok_shape (f g : FS) (n : Bool) (h : gcHook f n = .ok g) :
    ∃ oc gl, g = { f with opcount := oc, gcHookLastRun := gl } := by
  unfold gcHook at h
  split at h
  · cases h
    exact ⟨f.opcount, f.gcHookLastRun, rfl⟩
  · dsimp only at h
    split at h
    · split at h
      · split at h
        next f' heq =>
          unfold collectGarbage at heq
          split at heq
          · cases heq
          · cases heq
            cases h
            exact ⟨_, _, rfl⟩
        next f' heq => cases h
      · cases h
        exact ⟨_, _, rfl⟩
    · cases h
      exact ⟨_, _, rfl⟩

theorem gcStatus_fst_eq (st errSt : Int) (go : GcOut) (hne : errSt ≠ st)
    (h : (gcStatus st errSt go).1 = st) : go.raised = false := by
  cases go with
  | ok g => rfl
  | attrError g => exact absurd h hne

theorem gcStatus_snd (st errSt : Int) (go : GcOut) :
    (gcStatus st errSt go).2 = go.fsOf := by
  cases go <;> rfl

theorem gcHook_quiet_shape (f : FS) (n : Bool)
    (h : (gcHook f n).raised = false) :
    ∃ oc gl, (gcHook f n).fsOf = { f with opcount := oc, gcHookLastRun := gl } := by
  cases hgo : gcHook f n with
  | ok g =>
      obtain ⟨oc, gl, hshape⟩ := gcHook_ok_shape f g n hgo
      exact ⟨oc, gl, by rw [GcOut.fsOf, hshape]⟩
  | attrError g =>
      rw [hgo] at h
      cases h

/-! ### C3 — the collision is fatal, but the half-done index mutations
persist (failing-input evaluation). -/

/-- C3: with a constant hasher and block_size 4, aaaa is written to /f
and flushed (one index row); bbbb is then written to the reopened /f and
released.  The flush finds the digest, compares the stored block, writes
the collision dump with both blocks and terminates the process — but the
file's index rows, deleted at the start of the flush on the autocommit
connection, are gone and nothing was re-inserted: the index is left
half-updated, not rolled back. -/
theorem collision_fatal_partial_index :
    colStage1.index = [⟨2, 1, 0⟩] ∧
    (releaseOp colStage2 "/f").exitedQ = true ∧
    (releaseOp colStage2 "/f").dump =
      some ⟨[97, 97, 97, 97], [98, 98, 98, 98]⟩ ∧
    (releaseOp colStage2 "/f").fs.index = [] ∧
    (releaseOp colStage2 "/f").fs.index ≠ colStage1.index := by decide

/-! ### C4 — the claimed nlinks formula fails on a fresh mkdir. -/

/-- C4 counterexample: mkdir("/d", 0755) on a fresh mount succeeds and
creates inode 2 with nlinks 2 and directory mode, referenced by exactly
one tree row; the claimed formula demands treeCount + 2 = 3. -/
theorem mkdir_breaks_claimed_link_formula :
    (mkdirOp fsZero "/d" 493).1 = 0 ∧
    (fsDirD.inodes.find? (fun r => r.inode == 2)).map InodeRow.nlinks = some 2 ∧
    (fsDirD.inodes.find? (fun r => r.inode == 2)).map InodeRow.mode = some 16877 ∧
    isDirMode 16877 = true ∧
    treeCount fsDirD 2 = 1 ∧
    ((2 : Int) ≠ (treeCount fsDirD 2 : Int) + 2) := by decide

/-! ### C5 — the garbage collector crashes before the hash/block sweep. -/

/-- C5: on a store holding one hashes row no index row references (GC
enabled, store writable), collect_garbage raises AttributeError at
self.execute before the third sweep, so the orphan hash row and its
block survive the run; the spec-intended sweep would have removed both. -/
theorem gc_crashes_third_sweep_orphans_remain :
    fsOrphanHash.gc_enabled = true ∧
    fsOrphanHash.read_only = false ∧
    fsOrphanHash.index = [] ∧
    (collectGarbage fsOrphanHash).raised = true ∧
    (collectGarbage fsOrphanHash).fsOf.hashes = [(1, "dd")] ∧
    (collectGarbage fsOrphanHash).fsOf.blocks = [("dd", [7, 7])] ∧
    (collectGarbageIntended fsOrphanHash).hashes = [] ∧
    (collectGarbageIntended fsOrphanHash).blocks = [] := by decide

/-! ### C6 — write has no read-only guard. -/

/-- C6 counterexample: on a read-only mount with an open buffer for /a,
write("/a", three bytes, 0) does not fail with minus EROFS: it writes
into the buffer and returns the byte count. -/
theorem write_ignores_read_only :
    fsRoBuf.read_only = true ∧
    (writeOp fsRoBuf "/a" [1, 2, 3] 0).1 = 3 ∧
    ((3 : Int) ≠ -eRofs) ∧
    lookupBuf (writeOp fsRoBuf "/a" [1, 2, 3] 0).2.buffers "/a" =
      some ⟨[1, 2, 3], 3, true⟩ := by decide

/-! ### C7 — the read-only write-mask access failure is EACCES. -/

/-- C7 counterexample: on a read-only mount, access("/", W_OK) returns
minus EACCES (permission-denied), not minus EROFS. -/
theorem access_readonly_returns_eacces :
    fsRo.read_only = true ∧
    (accessOp fsRo "/" wOK).1 = -eAccess ∧
    ((-eAccess : Int) ≠ -eRofs) := by decide

/-! ### C9 — a conflicting compression choice of none is silently
overridden. -/

/-- C9 counterexample: with zlib persisted and none supplied on the
command line, get_opts_from_db adopts the persisted zlib but logs no
warning, because the warning is guarded by the supplied value not being
none. -/
theorem compress_none_conflict_unwarned :
    (getOptsFromDb (optionRows "1" "4" "zlib" "sha1")
        ⟨true, 4, "none", "sha1"⟩).1.compression_method = "zlib" ∧
    (getOptsFromDb (optionRows "1" "4" "zlib" "sha1")
        ⟨true, 4, "none", "sha1"⟩).2 = [] ∧
    (("none" : String) ≠ "zlib") := by decide

theorem lookupBuf_setBuf (l : List (String × Buf)) (p : String) (b : Buf) :
    lookupBuf (setBuf l p b) p = some b := by
  induction l with
  | nil => simp [setBuf, lookupBuf]
  | cons hd tl ih =>
      by_cases h : hd.1 = p
      · simp [setBuf, lookupBuf, h]
      · simp [setBuf, lookupBuf, h, ih]

/-- C6 amended: in read-only mode every metadata-mutating callback
(chmod, chown, create, link, mkdir, mknod, rename, rmdir, symlink,
truncate, unlink, utime, utimens) returns minus EROFS without touching
the state; write performs no read-only check at all — it writes into the
open buffer and returns the byte count (and release, which has no check
either, proceeds to its flush). -/
theorem read_only_guards (fs : FS) (hro : fs.read_only = true) :
    (∀ p m, chmodOp fs p m = (-eRofs, fs)) ∧
    (∀ p u g, chownOp fs p u g = (-eRofs, fs)) ∧
    (∀ p m fl, createOp fs p m fl = (-eRofs, fs)) ∧
    (∀ t l, linkOp fs t l = (-eRofs, fs)) ∧
    (∀ p m, mkdirOp fs p m = (-eRofs, fs)) ∧
    (∀ p m r, mknodOp fs p m r = (-eRofs, fs)) ∧
    (∀ o n, renameOp fs o n = (-eRofs, fs)) ∧
    (∀ p, rmdirOp fs p = (-eRofs, fs)) ∧
    (∀ t l, symlinkOp fs t l = (-eRofs, fs)) ∧
    (∀ p s, truncateOp fs p s = (-eRofs, fs)) ∧
    (∀ p, unlinkOp fs p = (-eRofs, fs)) ∧
    (∀ p a m, utimeOp fs p a m = (-eRofs, fs)) ∧
    (∀ p a m, utimensOp fs p a m = (-eRofs, fs)) ∧
    (∀ p d off b, lookupBuf fs.buffers p = some b →
       (writeOp fs p d off).1 = (d.length : Int) ∧
       lookupBuf (writeOp fs p d off).2.buffers p =
         some (bufWrite d { b with pos := off })) := by
  refine ⟨?_, ?_, ?_, ?_, ?_, ?_, ?_, ?_, ?_, ?_, ?_, ?_, ?_, ?_⟩
  · intro p m; simp [chmodOp, hro]
  · intro p u g; simp [chownOp, hro]
  · intro p m fl; simp [createOp, hro]
  · intro t l; simp [linkOp, hro]
  · intro p m; simp [mkdirOp, hro]
  · intro p m r; simp [mknodOp, hro]
  · intro o n; simp [renameOp, hro]
  · intro p; simp [rmdirOp, hro]
  · intro t l; simp [symlinkOp, hro]
  · intro p s; simp [truncateOp, hro]
  · intro p; simp [unlinkOp, hro]
  · intro p a m; simp [utimeOp, hro]
  · intro p a m; simp [utimensOp, hro]
  · intro p d off b hb
    simp [writeOp, getFileBuffer, hb, lookupBuf_setBuf]

/-- C6 witness: the read-only guards at a concrete read-only mount. -/
theorem read_only_guards_witness :
    mkdirOp fsRo "/d" 493 = (-eRofs, fsRo) ∧
    truncateOp fsRo "/a" 0 = (-eRofs, fsRo) :=
  ⟨(read_only_guards fsRo rfl).2.2.2.2.1 "/d" 493,
   (read_only_guards fsRo rfl).2.2.2.2.2.2.2.2.2.1 "/a" 0⟩

/-- C7 amended: on a read-only mount, an access call whose mask is not
existence-only and requests the write bit fails with minus EACCES
(permission-denied), the code's translation of the failed permission
check; EROFS is never produced here. -/
theorem access_readonly_write_mask_eacces (fs : FS) (path : String)
    (flags : Nat) (k : Nat × Nat)
    (hro : fs.read_only = true)
    (hres : (path2keys fs path).result = .ok k)
    (hf : flags ≠ fOK)
    (hw : flags &&& wOK ≠ 0) :
    (accessOp fs path flags).1 = -eAccess := by
  have hcore := core_read_only (path2keys_core fs path)
  simp only [accessOp, hres]
  rw [if_pos hf]
  unfold accessCheck
  rw [hcore, hro]
  simp [hw]

/-- C7 witness: the EACCES failure at a concrete read-only mount. -/
theorem access_readonly_write_mask_eacces_witness :
    (accessOp fsRo "/" wOK).1 = -eAccess :=
  access_readonly_write_mask_eacces fsRo "/" wOK (1, 1) rfl rfl
    (by decide) (by decide)

/-- C9 amended: on a mount of an initialised store the persisted
block_size, compression_method and hash_function are adopted regardless
of the command line; a differing command-line block_size or hash logs a
warning, and a differing compression choice logs one exactly when the
command-line value is not none. -/
theorem persisted_options_authoritative (o : Opts) (sync bs cm hf : String) :
    ((getOptsFromDb (optionRows sync bs cm hf) o).1.block_size = parseIntText bs) ∧
    ((getOptsFromDb (optionRows sync bs cm hf) o).1.compression_method = cm) ∧
    ((getOptsFromDb (optionRows sync bs cm hf) o).1.hash_function = hf) ∧
    (parseIntText bs ≠ o.block_size →
      OptWarning.blockSizeIgnored o.block_size (parseIntText bs) ∈
        (getOptsFromDb (optionRows sync bs cm hf) o).2) ∧
    (hf ≠ o.hash_function →
      OptWarning.hashIgnored o.hash_function hf ∈
        (getOptsFromDb (optionRows sync bs cm hf) o).2) ∧
    (cm ≠ o.compression_method → o.compression_method ≠ "none" →
      OptWarning.compressIgnored o.compression_method cm ∈
        (getOptsFromDb (optionRows sync bs cm hf) o).2) := by
  simp only [getOptsFromDb, optionRows, List.foldl]
  unfold getOptsRow
  simp only [reduceIte, String.reduceEq]
  split_ifs <;> simp_all [List.mem_append]

/-- C9 witness: conflicting block size and hash on the command line are
both overridden by the persisted values, with warnings. -/
theorem persisted_options_authoritative_witness :
    (getOptsFromDb (optionRows "1" "8" "zlib" "md5")
        ⟨true, 4, "lzo", "sha1"⟩).1.block_size = parseIntText "8" ∧
    OptWarning.hashIgnored "sha1" "md5" ∈
      (getOptsFromDb (optionRows "1" "8" "zlib" "md5")
        ⟨true, 4, "lzo", "sha1"⟩).2 :=
  ⟨(persisted_options_authoritative ⟨true, 4, "lzo", "sha1"⟩ "1" "8" "zlib" "md5").1,
   (persisted_options_authoritative ⟨true, 4, "lzo", "sha1"⟩ "1" "8" "zlib" "md5").2.2.2.2.1
     (by decide)⟩

/-- C10: a successful truncate deletes exactly the inode's index rows
with block_nr strictly greater than size divided by block_size, and sets
the inode's size; when the new size is a positive exact multiple of the
block size, the row at block_nr equal to size over block_size survives,
although its block starts at or beyond the new size — the rows need not
form the gap-free prefix any more. -/
theorem truncate_keeps_boundary_block (fs : FS) (path : String) (size : Nat)
    (k : Nat × Nat)
    (hres : (path2keys fs path).result = .ok k)
    (hro : fs.read_only = false)
    (hbs : fs.block_size ≠ 0)
    (hst : (truncateOp fs path size).1 = 0) :
    (truncateOp fs path size).2.index =
      fs.index.filter
        (fun t => !(t.inode == k.2 && decide (size / fs.block_size < t.block_nr))) ∧
    (truncateOp fs path size).2.inodes =
      fs.inodes.map (fun i => if i.inode == k.2 then { i with size := size } else i) ∧
    (size % fs.block_size = 0 → 0 < size →
      ∀ r : IndexRow, r ∈ fs.index → r.inode = k.2 →
        r.block_nr = size / fs.block_size →
        (r ∈ (truncateOp fs path size).2.index ∧
          size ≤ r.block_nr * fs.block_size)) := by
  have hcoreI := core_index (path2keys_core fs path)
  have hcoreN := core_inodes (path2keys_core fs path)
  have hcoreB := core_block_size (path2keys_core fs path)
  unfold truncateOp at hst ⊢
  rw [hro] at hst ⊢
  simp only [Bool.false_eq_true, if_false, hres] at hst ⊢
  rw [hcoreB] at hst ⊢
  rw [if_neg hbs] at hst ⊢
  have hquiet := gcStatus_fst_eq 0 (-eNoEnt) _ (by decide) hst
  obtain ⟨oc, gl, hshape⟩ := gcHook_quiet_shape _ false hquiet
  rw [gcStatus_snd, hshape]
  dsimp only
  rw [hcoreI, hcoreN]
  refine ⟨rfl, rfl, ?_⟩
  intro hmod hpos r hr hrin hrnr
  constructor
  · rw [List.mem_filter]
    refine ⟨hr, ?_⟩
    simp [hrin, hrnr]
  · rw [hrnr]
    have hdvd : fs.block_size ∣ size := Nat.dvd_of_mod_eq_zero hmod
    rw [Nat.div_mul_cancel hdvd]

/-- C10 witness: truncating the 8-byte two-block file to size 4 keeps
the boundary row at block 1. -/
theorem truncate_keeps_boundary_block_witness :
    (⟨2, 2, 1⟩ : IndexRow) ∈ (truncateOp fsTrunc "/a" 4).2.index ∧
    4 ≤ (⟨2, 2, 1⟩ : IndexRow).block_nr * fsTrunc.block_size :=
  (truncate_keeps_boundary_block fsTrunc "/a" 4 (2, 2) rfl rfl
      (by decide) (by decide)).2.2 (by decide) (by decide)
    ⟨2, 2, 1⟩ (by decide) rfl rfl

/-! ### C8 — path resolution matches the spec's description. -/

theorem walkSegs_result (tree : List TreeRow) (tnow : Nat) :
    ∀ (segs : List String) (m : CMap) (cur : Nat × Nat),
      (walkSegs tree tnow segs m cur.1 cur).result = resolveSpecGo tree segs m cur := by
  intro segs
  induction segs with
  | nil => intro m cur; rfl
  | cons s rest ih =>
      intro m cur
      unfold walkSegs resolveSpecGo
      cases hfind : cmapFind m s with
      | some n =>
          cases n with
          | mk v lu ch => exact ih ch v
      | none =>
          cases hq : treeLookup tree cur.1 s with
          | none => rfl
          | some k => exact ih ([] : CMap) k

theorem path2keys_root (fs : FS) : path2keys fs "/" = ⟨.ok (1, 1), fs, 0⟩ := by
  unfold path2keys
  rw [if_pos rfl]

theorem path2keys_result_spec (fs : FS) (path : String) :
    (path2keys fs path).result = resolvePathSpec fs.tree fs.cache path := by
  unfold path2keys resolvePathSpec
  split
  · rfl
  · exact walkSegs_result fs.tree fs.now (splitSegments path) fs.cache (1, 1)

theorem cmapFind_set_self (m : CMap) (k : String) (n : CNode) :
    cmapFind (cmapSet m k n) k = some n := by
  induction m with
  | nil => simp [cmapSet, cmapFind]
  | cons p rest ih =>
      by_cases h : p.1 = k
      · simp [cmapSet, cmapFind, h]
      · simp [cmapSet, cmapFind, h, ih]

theorem walkSegs_chain (tree : List TreeRow) (tnow : Nat) :
    ∀ (segs : List String) (m : CMap) (pid : Nat) (cur k : Nat × Nat),
      segs ≠ [] →
      (walkSegs tree tnow segs m pid cur).result = .ok k →
      chainStamped tnow (walkSegs tree tnow segs m pid cur).cache segs k := by
  intro segs
  induction segs with
  | nil => intro m pid cur k hne; exact absurd rfl hne
  | cons s rest ih =>
      intro m pid cur k _hne hres
      cases hfind : cmapFind m s with
      | some n =>
          cases n with
          | mk v lu ch =>
            rw [walkSegs, hfind] at hres ⊢
            dsimp only at hres ⊢
            cases rest with
            | nil =>
                cases hres
                exact ⟨_, cmapFind_set_self _ _ _, rfl, rfl⟩
            | cons r rs =>
                refine ⟨CNode.mk v tnow (walkSegs tree tnow (r :: rs) ch v.1 v).cache,
                  cmapFind_set_self _ _ _, rfl, ?_⟩
                exact ih ch v.1 v k (List.cons_ne_nil r rs) hres
      | none =>
          cases hq : treeLookup tree pid s with
          | none =>
              rw [walkSegs, hfind, hq] at hres
              cases hres
          | some k0 =>
              rw [walkSegs, hfind, hq] at hres ⊢
              dsimp only at hres ⊢
              cases rest with
              | nil =>
                  cases hres
                  exact ⟨_, cmapFind_set_self _ _ _, rfl, rfl⟩
              | cons r rs =>
                  refine ⟨CNode.mk k0 tnow (walkSegs tree tnow (r :: rs) ([] : CMap) k0.1 k0).cache,
                    cmapFind_set_self _ _ _, rfl, ?_⟩
                  exact ih ([] : CMap) k0.1 k0 k (List.cons_ne_nil r rs) hres

theorem cmapFind_doGc (t tout : Nat) (m : CMap) (s : String) (n : CNode)
    (h : cmapFind m s = some n) (hl : n.lastUsed = t) :
    cmapFind (cacheDoGcMap t tout m) s =
      some (CNode.mk n.value n.lastUsed (cacheDoGcMap t tout n.children)) := by
  induction m with
  | nil => cases h
  | cons p rest ih =>
      obtain ⟨s', nd⟩ := p
      cases nd with
      | mk v lu ch =>
        rw [cmapFind] at h
        by_cases hs : s' = s
        · rw [if_pos hs] at h
          cases h
          rw [CNode.lastUsed] at hl
          subst hl
          rw [cacheDoGcMap]
          rw [if_neg (by omega)]
          rw [cmapFind, if_pos hs]
          rfl
        · rw [if_neg hs] at h
          rw [cacheDoGcMap]
          split
          · exact ih h
          · rw [cmapFind, if_neg hs]
            exact ih h

theorem chainStamped_doGc (t tout : Nat) :
    ∀ (segs : List String) (m : CMap) (k : Nat × Nat),
      chainStamped t m segs k → chainStamped t (cacheDoGcMap t tout m) segs k := by
  intro segs
  induction segs with
  | nil => intro m k h; exact h.elim
  | cons s rest ih =>
      intro m k h
      cases rest with
      | nil =>
          obtain ⟨n, hf, hv, hl⟩ := h
          exact ⟨CNode.mk n.value n.lastUsed (cacheDoGcMap t tout n.children),
            cmapFind_doGc t tout m s n hf hl, hv, hl⟩
      | cons r rs =>
          obtain ⟨n, hf, hl, hrec⟩ := h
          exact ⟨CNode.mk n.value n.lastUsed (cacheDoGcMap t tout n.children),
            cmapFind_doGc t tout m s n hf hl, hl, ih n.children k hrec⟩

theorem chainStamped_follow (t : Nat) :
    ∀ (segs : List String) (m : CMap) (k : Nat × Nat),
      chainStamped t m segs k → cmapFollowVal m segs = some k := by
  intro segs
  induction segs with
  | nil => intro m k h; exact h.elim
  | cons s rest ih =>
      intro m k h
      cases rest with
      | nil =>
          obtain ⟨n, hf, hv, _⟩ := h
          rw [cmapFollowVal, hf]
          simp [hv]
      | cons r rs =>
          obtain ⟨n, hf, _, hrec⟩ := h
          rw [cmapFollowVal, hf]
          exact ih n.children k hrec

theorem path2keys_caches_result (fs : FS) (path : String) (k : Nat × Nat)
    (hne : splitSegments path ≠ [])
    (hres : (path2keys fs path).result = .ok k) :
    cmapFollowVal ((path2keys fs path).fs).cache (splitSegments path) = some k := by
  have hroot : ¬(path = "/") := by
    intro h
    subst h
    exact hne rfl
  unfold path2keys at hres ⊢
  rw [if_neg hroot] at hres ⊢
  dsimp only at hres ⊢
  have hchain := walkSegs_chain fs.tree fs.now (splitSegments path)
    fs.cache 1 (1, 1) k hne hres
  unfold cacheCheckGc
  dsimp only
  split
  · split
    · exact chainStamped_follow _ _ _ _ (chainStamped_doGc _ _ _ _ _ hchain)
    · exact chainStamped_follow _ _ _ _ hchain
  · exact chainStamped_follow _ _ _ _ hchain

/-- C8: path resolution behaves as the spec describes it — the root
resolves to (1, 1) with no database query and no state change; on every
path the result (keys, or the no-such-entry miss) coincides with the
spec's walk, which descends through cached children and queries tree by
(parent_id, name) on a miss; and a successful resolution leaves the
resolved keys reachable in the cache under the path's non-empty
segments. -/
theorem path2keys_matches_spec :
    (∀ fs : FS, path2keys fs "/" = ⟨.ok (1, 1), fs, 0⟩) ∧
    (∀ (fs : FS) (path : String),
      (path2keys fs path).result = resolvePathSpec fs.tree fs.cache path) ∧
    (∀ (fs : FS) (path : String) (k : Nat × Nat), splitSegments path ≠ [] →
      (path2keys fs path).result = .ok k →
      cmapFollowVal ((path2keys fs path).fs).cache (splitSegments path) = some k) :=
  ⟨path2keys_root, path2keys_result_spec, path2keys_caches_result⟩

/-- C8 witness: resolving /a on the two-block store queries the tree,
returns (2, 2), and leaves it in the cache. -/
theorem path2keys_matches_spec_witness :
    cmapFollowVal ((path2keys fsTrunc "/a").fs).cache (splitSegments "/a") =
      some (2, 2) :=
  path2keys_matches_spec.2.2 fsTrunc "/a" (2, 2) (by decide) rfl

/-! ### Supporting lemmas for the flush pipeline (C1, C2). -/

theorem lookupBuf_delBuf_self (l : List (String × Buf)) (p : String) :
    lookupBuf (delBuf l p) p = none := by
  induction l with
  | nil => rfl
  | cons hd tl ih =>
      unfold delBuf at ih ⊢
      rw [List.filter_cons]
      by_cases h : hd.1 = p
      · rw [if_neg (by simp [h])]
        exact ih
      · rw [if_pos (by simp [h])]
        rw [lookupBuf, if_neg h]
        exact ih

theorem lookupBlock_store_self (bl : List (String × Bytes)) (d : String)
    (b : Bytes) : lookupBlock (storeBlock bl d b) d = some b := by
  induction bl with
  | nil => simp [storeBlock, lookupBlock]
  | cons hd tl ih =>
      by_cases h : hd.1 = d
      · simp [storeBlock, lookupBlock, h]
      · simp [storeBlock, lookupBlock, h, ih]

theorem lookupBlock_store_ne (bl : List (String × Bytes)) (d d' : String)
    (b : Bytes) (hne : d' ≠ d) :
    lookupBlock (storeBlock bl d b) d' = lookupBlock bl d' := by
  induction bl with
  | nil => simp [storeBlock, lookupBlock, Ne.symm hne]
  | cons hd tl ih =>
      by_cases h : hd.1 = d
      · rw [storeBlock, if_pos h]
        rw [lookupBlock, lookupBlock]
        rw [if_neg (fun hc => hne hc.symm), if_neg (by rw [h]; exact fun hc => hne hc.symm)]
      · rw [storeBlock, if_neg h]
        rw [lookupBlock, lookupBlock]
        by_cases h2 : hd.1 = d'
        · rw [if_pos h2, if_pos h2]
        · rw [if_neg h2, if_neg h2]
          exact ih

theorem find?_append_none {α : Type} (p : α → Bool) (l1 l2 : List α)
    (h : ∀ x ∈ l1, p x = false) :
    (l1 ++ l2).find? p = l2.find? p := by
  induction l1 with
  | nil => rfl
  | cons hd tl ih =>
      rw [List.cons_append, List.find?]
      rw [h hd (List.mem_cons_self hd tl)]
      exact ih (fun x hx => h x (List.mem_cons_of_mem hd hx))

theorem find?_append_some {α : Type} (p : α → Bool) (l1 l2 : List α) (x : α)
    (h : l1.find? p = some x) : (l1 ++ l2).find? p = some x := by
  induction l1 with
  | nil => cases h
  | cons hd tl ih =>
      rw [List.find?] at h
      rw [List.cons_append, List.find?]
      cases hp : p hd with
      | true => rw [hp] at h; exact h
      | false =>
          rw [hp] at h
          exact ih h

theorem find?_id_of_nodup (l : List (Nat × String)) (x : Nat × String)
    (hnd : (l.map Prod.fst).Nodup) (hmem : x ∈ l) :
    l.find? (fun y => y.1 == x.1) = some x := by
  induction l with
  | nil => cases hmem
  | cons hd tl ih =>
      rw [List.map_cons, List.nodup_cons] at hnd
      rw [List.find?]
      rcases List.mem_cons.mp hmem with heq | htl
      · rw [heq]
        simp
      · have hne : hd.1 ≠ x.1 := by
          intro hc
          exact hnd.1 (hc ▸ List.mem_map_of_mem Prod.fst htl)
        rw [show (hd.1 == x.1) = false from beq_eq_false_iff_ne.mpr hne]
        exact ih hnd.2 htl

theorem digest_not_mem_of_find?_none (l : List (Nat × String)) (d : String)
    (h : l.find? (fun x => x.2 == d) = none) : d ∉ l.map Prod.snd := by
  intro hmem
  obtain ⟨x, hx, hxd⟩ := List.mem_map.mp hmem
  have := List.find?_eq_none.mp h x hx
  rw [hxd] at this
  simp at this

theorem find?_digest_snd (l : List (Nat × String)) (d : String)
    (x : Nat × String) (h : l.find? (fun y => y.2 == d) = some x) :
    x.2 = d ∧ x ∈ l :=
  ⟨by have := List.find?_some h; exact beq_iff_eq.mp this,
   List.mem_of_find?_eq_some h⟩

theorem chunkList_length (bs : Nat) (B : Bytes) :
    ∀ (k nr : Nat), (chunkList bs B nr k).length = k := by
  intro k
  induction k with
  | zero => intro nr; rfl
  | succ k ih =>
      intro nr
      rw [chunkList, List.length_cons, ih (nr + 1)]

theorem mem_chunkList_tail (bs : Nat) (B : Bytes) (k nr : Nat) (c : Bytes)
    (h : c ∈ chunkList bs B (nr + 1) k) : c ∈ chunkList bs B nr (k + 1) := by
  rw [chunkList]
  exact List.mem_cons_of_mem _ h

theorem mem_flushRows (ino : Nat) :
    ∀ (hids : List Nat) (nr : Nat) (x : IndexRow),
      x ∈ flushRows ino nr hids → x.inode = ino ∧ nr ≤ x.block_nr := by
  intro hids
  induction hids with
  | nil => intro nr x hx; cases hx
  | cons hid hs ih =>
      intro nr x hx
      rw [flushRows] at hx
      rcases List.mem_cons.mp hx with heq | htl
      · subst heq
        exact ⟨rfl, Nat.le_refl nr⟩
      · obtain ⟨h1, h2⟩ := ih (nr + 1) x htl
        exact ⟨h1, Nat.le_of_succ_le h2⟩

theorem insertByNr_head_le (r : IndexRow) (l : List IndexRow)
    (hle : ∀ x ∈ l, r.block_nr ≤ x.block_nr) : insertByNr r l = r :: l := by
  cases l with
  | nil => rfl
  | cons s t =>
      rw [insertByNr, if_pos (hle s (List.mem_cons_self s t))]

theorem sortByNr_flushRows (ino : Nat) :
    ∀ (hids : List Nat) (nr : Nat),
      sortByNr (flushRows ino nr hids) = flushRows ino nr hids := by
  intro hids
  induction hids with
  | nil => intro nr; rfl
  | cons hid hs ih =>
      intro nr
      rw [flushRows, sortByNr, ih (nr + 1)]
      apply insertByNr_head_le
      intro x hx
      have h2 := (mem_flushRows ino hs (nr + 1) x hx).2
      show nr ≤ x.block_nr
      omega

theorem filter_inode_flushRows (ino : Nat) (pre : List IndexRow)
    (hids : List Nat) (nr : Nat)
    (hpre : ∀ r ∈ pre, (r.inode == ino) = false) :
    (pre ++ flushRows ino nr hids).filter (fun r => r.inode == ino) =
      flushRows ino nr hids := by
  rw [List.filter_append]
  rw [List.filter_eq_nil_iff.mpr (by intro r hr; simp [hpre r hr])]
  rw [List.nil_append]
  apply List.filter_eq_self.mpr
  intro r hr
  have := (mem_flushRows ino hids nr r hr).1
  simp [this]

theorem le_mul_numBlocks (bs len : Nat) (hbs : 0 < bs) :
    len ≤ bs * numBlocks bs len := by
  unfold numBlocks
  have h1 := Nat.div_add_mod (len + bs - 1) bs
  have h2 := Nat.mod_lt (len + bs - 1) hbs
  generalize hm : bs * ((len + bs - 1) / bs) = m at h1 ⊢
  generalize (len + bs - 1) % bs = r at h1 h2
  omega

theorem chunksFrom_eq_drop (bs : Nat) (_hbs : 0 < bs) (B : Bytes) :
    ∀ (k nr : Nat), B.length ≤ bs * (nr + k) →
      chunksFrom bs B nr k = B.drop (bs * nr) := by
  intro k
  induction k with
  | zero =>
      intro nr hlen
      rw [chunksFrom]
      rw [Nat.add_zero] at hlen
      exact (List.drop_eq_nil_of_le (by simpa using hlen)).symm
  | succ k ih =>
      intro nr hlen
      rw [chunksFrom]
      rw [ih (nr + 1)
        (by rw [show bs * (nr + 1 + k) = bs * (nr + (k + 1)) from by ring]; exact hlen)]
      rw [chunkAt]
      rw [show bs * (nr + 1) = bs * nr + bs from by ring]
      have hdd : List.drop (bs * nr + bs) B = List.drop bs (List.drop (bs * nr) B) := by
        rw [List.drop_drop]
      rw [hdd]
      exact List.take_append_drop bs _

theorem writeBlocksLoop_spec (ino : Nat) (B : Bytes) :
    ∀ (k nr : Nat) (fs f : FS),
      writeBlocksLoop ino B nr k fs = .ok f →
      (fs.hashes.map Prod.fst).Nodup →
      (∀ h ∈ fs.hashes, h.1 < fs.nextHashId) →
      (∀ b, fs.decompress (fs.compress b) = b) →
      ∃ news hids, LoopOut ino B nr k fs f news hids := by
  intro k
  induction k with
  | zero =>
      intro nr fs f hok hnd hbd _hcomp
      rw [writeBlocksLoop] at hok
      cases hok
      refine ⟨[], [], ?_⟩
      exact {
        blockSizeEq := rfl, hashFnEq := rfl, compressEq := rfl,
        decompressEq := rfl, buffersEq := rfl, inodesEq := rfl,
        treeEq := rfl,
        hashesEq := (List.append_nil _).symm,
        newsIdsGe := (by intro h hh; cases hh),
        nextGe := Nat.le_refl _,
        idsNodup := hnd, idsLt := hbd,
        newsDigestsIn := (by intro d hd; cases hd),
        newsDigestsNodup := List.nodup_nil,
        blocksStable := (by intro d _; rfl),
        hidsLen := rfl,
        indexEq := (List.append_nil _).symm,
        good := trivial,
        allDigestsIn := (by intro d hd; rw [chunkList] at hd; cases hd) }
  | succ k ih =>
      intro nr fs f hok hnd hbd hcomp
      rw [writeBlocksLoop] at hok
      dsimp only at hok
      cases hfind : fs.hashes.find?
          (fun h => h.2 == fs.hashFn (chunkAt fs.block_size B nr)) with
      | some hrow =>
          rw [hfind] at hok
          dsimp only at hok
          obtain ⟨hrd, hrmem⟩ := find?_digest_snd _ _ _ hfind
          cases hlb : lookupBlock fs.blocks
              (fs.hashFn (chunkAt fs.block_size B nr)) with
          | none => rw [hlb] at hok; cases hok
          | some stored =>
              rw [hlb] at hok
              dsimp only at hok
              by_cases hblk :
                  chunkAt fs.block_size B nr = fs.decompress stored
              · rw [if_pos hblk] at hok
                obtain ⟨news1, hids1, lo⟩ :=
                  ih (nr + 1)
                    { fs with index := fs.index ++ [⟨ino, hrow.1, nr⟩] }
                    f hok hnd hbd hcomp
                refine ⟨news1, hrow.1 :: hids1, ?_⟩
                refine {
                  blockSizeEq := lo.blockSizeEq,
                  hashFnEq := lo.hashFnEq,
                  compressEq := lo.compressEq,
                  decompressEq := lo.decompressEq,
                  buffersEq := lo.buffersEq,
                  inodesEq := lo.inodesEq,
                  treeEq := lo.treeEq,
                  hashesEq := lo.hashesEq,
                  newsIdsGe := lo.newsIdsGe,
                  nextGe := lo.nextGe,
                  idsNodup := lo.idsNodup,
                  idsLt := lo.idsLt,
                  newsDigestsIn := ?_,
                  newsDigestsNodup := lo.newsDigestsNodup,
                  blocksStable := lo.blocksStable,
                  hidsLen := (by rw [List.length_cons, lo.hidsLen]),
                  indexEq := ?_,
                  good := ⟨?_, lo.good⟩,
                  allDigestsIn := ?_ }
                · intro d hd
                  obtain ⟨hin, hnotin⟩ := lo.newsDigestsIn d hd
                  refine ⟨?_, hnotin⟩
                  rw [chunkList, List.map_cons]
                  exact List.mem_cons_of_mem _ hin
                · show f.index =
                    fs.index ++ flushRows ino nr (hrow.1 :: hids1)
                  rw [flushRows]
                  refine lo.indexEq.trans ?_
                  show (fs.index ++ [⟨ino, hrow.1, nr⟩]) ++
                      flushRows ino (nr + 1) hids1 = _
                  rw [List.append_assoc, List.singleton_append]
                · -- the head fact of goodRows
                  refine ⟨hrow.2, ?_, ?_⟩
                  · have hfid :
                        fs.hashes.find? (fun y => y.1 == hrow.1) = some hrow :=
                      find?_id_of_nodup fs.hashes hrow hnd hrmem
                    have : f.hashes.find? (fun y => y.1 == hrow.1) = some hrow := by
                      rw [lo.hashesEq]
                      exact find?_append_some _ _ _ _ hfid
                    rw [this]
                    rfl
                  · have hmemd : hrow.2 ∈ fs.hashes.map Prod.snd :=
                      List.mem_map_of_mem Prod.snd hrmem
                    have hstable := lo.blocksStable hrow.2 hmemd
                    have : lookupBlock f.blocks hrow.2 = some stored := by
                      rw [hstable]
                      show lookupBlock fs.blocks hrow.2 = some stored
                      rw [hrd]
                      exact hlb
                    rw [this]
                    show some (f.decompress stored) = some (chunkAt f.block_size B nr)
                    rw [lo.decompressEq, lo.blockSizeEq, ← hblk]
                · intro d hd
                  rw [chunkList, List.map_cons] at hd
                  rcases List.mem_cons.mp hd with heq | htl
                  · rw [lo.hashesEq, List.map_append]
                    apply List.mem_append_left
                    rw [heq, ← hrd]
                    exact List.mem_map_of_mem Prod.snd hrmem
                  · exact lo.allDigestsIn d htl
              · rw [if_neg hblk] at hok
                cases hok
      | none =>
          rw [hfind] at hok
          dsimp only at hok
          have hnomem := digest_not_mem_of_find?_none _ _ hfind
          by_cases hvw : fs.verify_writes = true
          · rw [if_pos hvw] at hok
            cases hok
          · rw [if_neg hvw] at hok
            have hnd1 : (((fs.hashes ++
                [(fs.nextHashId, fs.hashFn (chunkAt fs.block_size B nr))]).map
                  Prod.fst)).Nodup := by
              rw [List.map_append]
              refine List.Nodup.append hnd (List.nodup_singleton _) ?_
              intro a ha hb
              rw [List.map_singleton, List.mem_singleton] at hb
              subst hb
              obtain ⟨x, hx, hxa⟩ := List.mem_map.mp ha
              have := hbd x hx
              omega
            have hbd1 : ∀ h ∈ fs.hashes ++
                [(fs.nextHashId, fs.hashFn (chunkAt fs.block_size B nr))],
                h.1 < fs.nextHashId + 1 := by
              intro h hmem
              rcases List.mem_append.mp hmem with hl | hr
              · have := hbd h hl
                omega
              · rw [List.mem_singleton] at hr
                subst hr
                omega
            obtain ⟨news1, hids1, lo⟩ := ih (nr + 1) _ f hok hnd1 hbd1 hcomp
            refine ⟨(fs.nextHashId, fs.hashFn (chunkAt fs.block_size B nr)) :: news1,
              fs.nextHashId :: hids1, ?_⟩
            have hmemd1 : fs.hashFn (chunkAt fs.block_size B nr) ∈
                (fs.hashes ++
                  [(fs.nextHashId, fs.hashFn (chunkAt fs.block_size B nr))]).map
                  Prod.snd := by
              rw [List.map_append]
              apply List.mem_append_right
              rw [List.map_singleton]
              exact List.mem_singleton.mpr rfl
            refine {
              blockSizeEq := lo.blockSizeEq,
              hashFnEq := lo.hashFnEq,
              compressEq := lo.compressEq,
              decompressEq := lo.decompressEq,
              buffersEq := lo.buffersEq,
              inodesEq := lo.inodesEq,
              treeEq := lo.treeEq,
              hashesEq := ?_,
              newsIdsGe := ?_,
              nextGe := Nat.le_trans (Nat.le_succ _) lo.nextGe,
              idsNodup := lo.idsNodup,
              idsLt := lo.idsLt,
              newsDigestsIn := ?_,
              newsDigestsNodup := ?_,
              blocksStable := ?_,
              hidsLen := (by rw [List.length_cons, lo.hidsLen]),
              indexEq := ?_,
              good := ⟨?_, lo.good⟩,
              allDigestsIn := ?_ }
            · refine lo.hashesEq.trans ?_
              show (fs.hashes ++ [_]) ++ news1 = _
              rw [List.append_assoc, List.singleton_append]
            · intro h hmem
              rcases List.mem_cons.mp hmem with heq | htl
              · subst heq
                exact Nat.le_refl _
              · have h2 : fs.nextHashId + 1 ≤ h.1 := lo.newsIdsGe h htl
                show fs.nextHashId ≤ h.1
                omega
            · intro d hd
              rw [List.map_cons] at hd
              rcases List.mem_cons.mp hd with heq | htl
              · subst heq
                constructor
                · rw [chunkList, List.map_cons]
                  exact List.mem_cons_self _ _
                · exact hnomem
              · obtain ⟨hin, hnotin⟩ := lo.newsDigestsIn d htl
                constructor
                · rw [chunkList, List.map_cons]
                  exact List.mem_cons_of_mem _ hin
                · intro hc
                  apply hnotin
                  rw [List.map_append]
                  exact List.mem_append_left _ hc
            · rw [List.map_cons]
              refine List.Nodup.cons ?_ lo.newsDigestsNodup
              intro hc
              exact (lo.newsDigestsIn _ hc).2 hmemd1
            · intro d hd
              have hne : d ≠ fs.hashFn (chunkAt fs.block_size B nr) := by
                intro hc
                subst hc
                exact hnomem hd
              have hmem1 : d ∈ (fs.hashes ++
                  [(fs.nextHashId, fs.hashFn (chunkAt fs.block_size B nr))]).map
                    Prod.snd := by
                rw [List.map_append]
                exact List.mem_append_left _ hd
              have := lo.blocksStable d hmem1
              rw [this]
              show lookupBlock (storeBlock fs.blocks _ _) d = _
              exact lookupBlock_store_ne _ _ _ _ hne
            · show f.index = fs.index ++ flushRows ino nr (fs.nextHashId :: hids1)
              rw [flushRows]
              refine lo.indexEq.trans ?_
              show (fs.index ++ [⟨ino, fs.nextHashId, nr⟩]) ++
                  flushRows ino (nr + 1) hids1 = _
              rw [List.append_assoc, List.singleton_append]
            · -- head fact of goodRows for the fresh block
              refine ⟨fs.hashFn (chunkAt fs.block_size B nr), ?_, ?_⟩
              · have hfid : (fs.hashes ++
                    [(fs.nextHashId, fs.hashFn (chunkAt fs.block_size B nr))]).find?
                      (fun y => y.1 == fs.nextHashId) =
                    some (fs.nextHashId, fs.hashFn (chunkAt fs.block_size B nr)) := by
                  rw [find?_append_none]
                  · rw [List.find?]
                    simp
                  · intro x hx
                    have := hbd x hx
                    exact beq_eq_false_iff_ne.mpr (by omega)
                have : f.hashes.find? (fun y => y.1 == fs.nextHashId) =
                    some (fs.nextHashId, fs.hashFn (chunkAt fs.block_size B nr)) := by
                  rw [lo.hashesEq]
                  exact find?_append_some _ _ _ _ hfid
                rw [this]
                rfl
              · have hstable := lo.blocksStable _ hmemd1
                rw [hstable]
                show (lookupBlock (storeBlock fs.blocks
                    (fs.hashFn (chunkAt fs.block_size B nr))
                    (fs.compress (chunkAt fs.block_size B nr)))
                    (fs.hashFn (chunkAt fs.block_size B nr))).map f.decompress = _
                rw [lookupBlock_store_self]
                show some (f.decompress (fs.compress (chunkAt fs.block_size B nr))) =
                  some (chunkAt f.block_size B nr)
                rw [lo.decompressEq, lo.blockSizeEq]
                show some (fs.decompress (fs.compress (chunkAt fs.block_size B nr))) =
                  some (chunkAt fs.block_size B nr)
                rw [hcomp]
            · intro d hd
              rw [chunkList, List.map_cons] at hd
              rcases List.mem_cons.mp hd with heq | htl
              · rw [lo.hashesEq, List.map_append]
                apply List.mem_append_left
                rw [heq]
                exact hmemd1
              · exact lo.allDigestsIn d htl

theorem goodRows_congr {a b : FS} (B : Bytes) (hh : a.hashes = b.hashes)
    (hbk : a.blocks = b.blocks) (hd : a.decompress = b.decompress)
    (hbs : a.block_size = b.block_size) :
    ∀ (hids : List Nat) (nr : Nat), goodRows a B nr hids → goodRows b B nr hids := by
  intro hids
  induction hids with
  | nil => intro nr _; trivial
  | cons hid hs ih =>
      intro nr hg
      obtain ⟨⟨d, h1, h2⟩, htail⟩ := hg
      refine ⟨⟨d, ?_, ?_⟩, ih (nr + 1) htail⟩
      · rw [← hh]
        exact h1
      · rw [← hbk, ← hd, ← hbs]
        exact h2

theorem goodRows_load (f : FS) (ino : Nat) (B : Bytes) :
    ∀ (hids : List Nat) (nr : Nat), goodRows f B nr hids →
      loadBlocks f ((flushRows ino nr hids).filterMap
        (fun r => (f.hashes.find? (fun h => h.1 == r.hash_id)).map Prod.snd)) =
      some (chunksFrom f.block_size B nr hids.length) := by
  intro hids
  induction hids with
  | nil => intro nr _; rfl
  | cons hid hs ih =>
      intro nr hg
      obtain ⟨⟨d, hfd, hld⟩, htail⟩ := hg
      rw [flushRows]
      rw [List.filterMap_cons]
      dsimp only
      rw [hfd]
      dsimp only
      obtain ⟨sb, hsb, hdec⟩ := Option.map_eq_some'.mp hld
      rw [loadBlocks, hsb]
      dsimp only
      rw [ih (nr + 1) htail]
      rw [List.length_cons, chunksFrom]
      rw [hdec]
      rfl

theorem joinedDigests_congr {a b : FS} (hi : a.index = b.index)
    (hh : a.hashes = b.hashes) (ino : Nat) :
    joinedDigests a ino = joinedDigests b ino := by
  unfold joinedDigests
  rw [hi, hh]

theorem loadBlocks_congr {a b : FS} (hbk : a.blocks = b.blocks)
    (hd : a.decompress = b.decompress) :
    ∀ ds, loadBlocks a ds = loadBlocks b ds := by
  intro ds
  induction ds with
  | nil => rfl
  | cons d rest ih =>
      rw [loadBlocks, loadBlocks, hbk, hd, ih]

theorem writeOp_core (fs : FS) (p : String) (d : Bytes) (o : Nat) :
    ((writeOp fs p d o).2).core = fs.core := by
  unfold writeOp getFileBuffer
  cases hlb : lookupBuf fs.buffers p with
  | some b => rfl
  | none =>
      dsimp only
      cases hres : (path2keys fs p).result with
      | error e =>
          dsimp only
          exact path2keys_core fs p
      | ok k =>
          dsimp only
          cases hload : loadBlocks ((path2keys fs p).fs)
              (joinedDigests ((path2keys fs p).fs) k.2) with
          | none => exact path2keys_core fs p
          | some content => exact path2keys_core fs p

theorem applyWrites_core (fs : FS) (p : String) :
    ∀ (ws : List (Nat × Bytes)), (applyWrites fs p ws).core = fs.core := by
  intro ws
  induction ws generalizing fs with
  | nil => rfl
  | cons w rest ih =>
      rw [applyWrites]
      exact (ih _).trans (writeOp_core fs p w.2 w.1)

theorem applyWrites_read_only (fs : FS) (p : String) (ws : List (Nat × Bytes)) :
    (applyWrites fs p ws).read_only = fs.read_only :=
  core_read_only (applyWrites_core fs p ws)

theorem readOp_fresh (fs : FS) (path : String) (k : Nat × Nat) (content : Bytes)
    (hnb : lookupBuf fs.buffers path = none)
    (hres : (path2keys fs path).result = .ok k)
    (hload : loadBlocks ((path2keys fs path).fs)
      (joinedDigests ((path2keys fs path).fs) k.2) = some content) :
    (readOp fs path content.length 0).1 = .ok content := by
  unfold readOp getFileBuffer
  rw [hnb]
  dsimp only
  rw [hres]
  dsimp only
  rw [hload]
  dsimp only
  rw [List.drop_zero, List.take_length]

theorem releaseOp_ok (fs fs2 : FS) (path : String) (b : Buf)
    (hb : lookupBuf fs.buffers path = some b) (hdirty : b.dirty = true)
    (hrel : releaseOp fs path = .ret 0 fs2) :
    ∃ k floop, (path2keys fs path).result = .ok k ∧
      writeBlocks k.2 b.data b.data.length ((path2keys fs path).fs) = .ok floop ∧
      (gcHook floop false).raised = false ∧
      fs2 = { (gcHook floop false).fsOf with
        buffers := delBuf ((gcHook floop false).fsOf).buffers path } := by
  unfold releaseOp at hrel
  rw [hb] at hrel
  dsimp only at hrel
  rw [if_pos hdirty] at hrel
  cases hres : (path2keys fs path).result with
  | error e =>
      rw [hres] at hrel
      dsimp only at hrel
      simp [eNoEnt] at hrel
  | ok k =>
      rw [hres] at hrel
      dsimp only at hrel
      cases hwb : writeBlocks k.2 b.data b.data.length ((path2keys fs path).fs) with
      | error e =>
          rw [hwb] at hrel
          obtain ⟨err, fx⟩ := e
          cases err with
          | collision dmp => cases hrel
          | missingBlock => simp [eIo] at hrel
          | verifyTableMissing => simp [eIo] at hrel
          | zeroBlockSize => simp [eIo] at hrel
      | ok floop =>
          rw [hwb] at hrel
          dsimp only at hrel
          cases hgo : gcHook floop false with
          | ok g =>
              rw [hgo] at hrel
              unfold gcRelease at hrel
              dsimp only at hrel
              cases hrel
              exact ⟨k, floop, rfl, hwb, by rw [hgo]; rfl, by rw [hgo]; rfl⟩
          | attrError g =>
              rw [hgo] at hrel
              unfold gcRelease at hrel
              dsimp only at hrel
              simp [eIo] at hrel

theorem writeBlocks_reconstruct (fs f : FS) (ino : Nat) (B : Bytes)
    (asize : Nat)
    (hnd : (fs.hashes.map Prod.fst).Nodup)
    (hbd : ∀ h ∈ fs.hashes, h.1 < fs.nextHashId)
    (hcomp : ∀ bb, fs.decompress (fs.compress bb) = bb)
    (hok : writeBlocks ino B asize fs = .ok f) :
    loadBlocks f (joinedDigests f ino) = some B ∧
    f.buffers = fs.buffers ∧ f.block_size = fs.block_size := by
  unfold writeBlocks at hok
  dsimp only at hok
  by_cases hbs0 : fs.block_size = 0
  · rw [if_pos hbs0] at hok
    cases hok
  · rw [if_neg hbs0] at hok
    cases hloop : writeBlocksLoop ino B 0
        (numBlocks fs.block_size B.length)
        { fs with index := fs.index.filter (fun r => r.inode != ino) } with
    | error e => rw [hloop] at hok; cases hok
    | ok floop =>
        rw [hloop] at hok
        dsimp only at hok
        injection hok with hfeq
        obtain ⟨news, hids, lo⟩ :=
          writeBlocksLoop_spec ino B (numBlocks fs.block_size B.length) 0
            { fs with index := fs.index.filter (fun r => r.inode != ino) }
            floop hloop hnd hbd hcomp
        have hbsf : floop.block_size = fs.block_size := lo.blockSizeEq
        have hidx : f.index = floop.index := by rw [← hfeq]
        have hhsh : f.hashes = floop.hashes := by rw [← hfeq]
        have hblk : f.blocks = floop.blocks := by rw [← hfeq]
        have hdcp : f.decompress = floop.decompress := by rw [← hfeq]
        have hbsf2 : f.block_size = floop.block_size := by rw [← hfeq]
        have hbuf : f.buffers = floop.buffers := by rw [← hfeq]
        have hfilter :
            floop.index.filter (fun r => r.inode == ino) = flushRows ino 0 hids := by
          rw [lo.indexEq]
          apply filter_inode_flushRows
          intro r hr
          have := List.mem_filter.mp hr
          have h2 := this.2
          rw [bne_iff_ne] at h2
          simp [h2]
        constructor
        · rw [joinedDigests_congr hidx hhsh ino]
          rw [loadBlocks_congr hblk hdcp]
          unfold joinedDigests
          rw [hfilter, sortByNr_flushRows]
          rw [goodRows_load floop ino B hids 0 lo.good]
          rw [lo.hidsLen, hbsf]
          rw [chunksFrom_eq_drop fs.block_size (Nat.pos_of_ne_zero hbs0) B
            (numBlocks fs.block_size B.length) 0
            (by rw [Nat.zero_add]; exact le_mul_numBlocks _ _ (Nat.pos_of_ne_zero hbs0))]
          rw [Nat.mul_zero, List.drop_zero]
        · exact ⟨hbuf.trans lo.buffersEq, hbsf2.trans hbsf⟩

theorem writeBlocks_growth (fs f : FS) (ino : Nat) (B : Bytes) (asize : Nat)
    (hnd : (fs.hashes.map Prod.fst).Nodup)
    (hbd : ∀ h ∈ fs.hashes, h.1 < fs.nextHashId)
    (hcomp : ∀ bb, fs.decompress (fs.compress bb) = bb)
    (hok : writeBlocks ino B asize fs = .ok f) :
    ∃ news, f.hashes = fs.hashes ++ news ∧
      (news.map Prod.snd).Nodup ∧
      (∀ d ∈ news.map Prod.snd,
        d ∈ (chunkList fs.block_size B 0
          (numBlocks fs.block_size B.length)).map fs.hashFn ∧
        d ∉ fs.hashes.map Prod.snd) ∧
      (∀ d ∈ (chunkList fs.block_size B 0
          (numBlocks fs.block_size B.length)).map fs.hashFn,
        d ∈ f.hashes.map Prod.snd) ∧
      f.block_size = fs.block_size ∧ f.hashFn = fs.hashFn ∧
      f.compress = fs.compress ∧ f.decompress = fs.decompress ∧
      (f.hashes.map Prod.fst).Nodup ∧
      (∀ h ∈ f.hashes, h.1 < f.nextHashId) := by
  unfold writeBlocks at hok
  dsimp only at hok
  by_cases hbs0 : fs.block_size = 0
  · rw [if_pos hbs0] at hok
    cases hok
  · rw [if_neg hbs0] at hok
    cases hloop : writeBlocksLoop ino B 0
        (numBlocks fs.block_size B.length)
        { fs with index := fs.index.filter (fun r => r.inode != ino) } with
    | error e => rw [hloop] at hok; cases hok
    | ok floop =>
        rw [hloop] at hok
        dsimp only at hok
        cases hok
        obtain ⟨news, hids, lo⟩ :=
          writeBlocksLoop_spec ino B (numBlocks fs.block_size B.length) 0
            { fs with index := fs.index.filter (fun r => r.inode != ino) }
            floop hloop hnd hbd hcomp
        refine ⟨news, lo.hashesEq, lo.newsDigestsNodup, ?_, ?_,
          lo.blockSizeEq, lo.hashFnEq, lo.compressEq, lo.decompressEq,
          lo.idsNodup, lo.idsLt⟩
        · intro d hd
          exact lo.newsDigestsIn d hd
        · intro d hd
          exact lo.allDigestsIn d hd

/-- C1: for a regular file, after any sequence of writes to a path
(fragmented arbitrarily) followed by a successful release that flushes
the dirty buffer, a read of the flushed length at offset 0 returns
exactly the byte stream the buffer held when it was flushed.  The
hypotheses say the hash-id column is a proper key, decompression inverts
compression, the buffer for the path is dirty after the writes, and both
resolutions of the path (before the flush and at the read) succeed and
name the same inode. -/
theorem flush_read_roundtrip
    (fs0 : FS) (path : String) (writes : List (Nat × Bytes))
    (bufF : Buf) (fs2 : FS) (k1 k2 : Nat × Nat)
    (hnd : (fs0.hashes.map Prod.fst).Nodup)
    (hbd : ∀ h ∈ fs0.hashes, h.1 < fs0.nextHashId)
    (hcomp : ∀ bb, fs0.decompress (fs0.compress bb) = bb)
    (hbufF : lookupBuf (applyWrites fs0 path writes).buffers path = some bufF)
    (hdirty : bufF.dirty = true)
    (hres1 : (path2keys (applyWrites fs0 path writes) path).result = .ok k1)
    (hrel : releaseOp (applyWrites fs0 path writes) path = .ret 0 fs2)
    (hres2 : (path2keys fs2 path).result = .ok k2)
    (hsame : k2.2 = k1.2) :
    (readOp fs2 path bufF.data.length 0).1 = .ok bufF.data := by
  obtain ⟨k, floop, hresk, hwb, hqg, hfs2⟩ :=
    releaseOp_ok (applyWrites fs0 path writes) fs2 path bufF hbufF hdirty hrel
  obtain rfl : k = k1 := by
    rw [hresk] at hres1
    exact Except.ok.inj hres1
  have hcoreR : ((path2keys (applyWrites fs0 path writes) path).fs).core =
      fs0.core :=
    (path2keys_core _ path).trans (applyWrites_core fs0 path writes)
  obtain ⟨hload, hbufs, hbs⟩ :=
    writeBlocks_reconstruct ((path2keys (applyWrites fs0 path writes) path).fs)
      floop k.2 bufF.data bufF.data.length
      (by rw [core_hashes hcoreR]; exact hnd)
      (by intro h hm
          rw [core_hashes hcoreR] at hm
          rw [core_nextHashId hcoreR]
          exact hbd h hm)
      (by intro bb
          rw [core_decompress hcoreR, core_compress hcoreR]
          exact hcomp bb)
      hwb
  obtain ⟨oc, gl, hG⟩ := gcHook_quiet_shape floop false hqg
  have hIdx : fs2.index = floop.index := by rw [hfs2, hG]
  have hH : fs2.hashes = floop.hashes := by rw [hfs2, hG]
  have hBk : fs2.blocks = floop.blocks := by rw [hfs2, hG]
  have hD : fs2.decompress = floop.decompress := by rw [hfs2, hG]
  have hnb : lookupBuf fs2.buffers path = none := by
    rw [hfs2]
    exact lookupBuf_delBuf_self _ _
  have hcore2 : ((path2keys fs2 path).fs).core = fs2.core := path2keys_core fs2 path
  have hload2 : loadBlocks ((path2keys fs2 path).fs)
      (joinedDigests ((path2keys fs2 path).fs) k2.2) = some bufF.data := by
    rw [hsame]
    rw [joinedDigests_congr ((core_index hcore2).trans hIdx)
      ((core_hashes hcore2).trans hH) k.2]
    rw [loadBlocks_congr ((core_blocks hcore2).trans hBk)
      ((core_decompress hcore2).trans hD)]
    exact hload
  exact readOp_fresh fs2 path k2 bufF.data hnb hres2 hload2

/-- Closed instance of the round-trip: with block_size 4, create /a,
write hello world! (12 bytes) at offset 0, release; reading 12 bytes at
offset 0 returns hello world!. -/
theorem flush_read_roundtrip_witness :
    (readOp c1Released "/a" helloBytes.length 0).1 = .ok helloBytes :=
  flush_read_roundtrip c1Created "/a" [(0, helloBytes)] ⟨helloBytes, 12, true⟩
    c1Released (2, 2) (2, 2)
    (by decide) (by decide) (fun bb => rfl)
    (by decide) rfl rfl rfl rfl rfl

theorem nodup_sub_dedup_le {α : Type} [DecidableEq α] (l1 l2 : List α)
    (hnd : l1.Nodup) (hsub : ∀ x ∈ l1, x ∈ l2) :
    l1.length ≤ l2.dedup.length := by
  rw [← List.card_toFinset]
  rw [← List.toFinset_card_of_nodup hnd]
  apply Finset.card_le_card
  intro x hx
  rw [List.mem_toFinset] at hx ⊢
  exact hsub x hx

theorem dedup_map_le {α β : Type} [DecidableEq α] [DecidableEq β]
    (g : α → β) (l : List α) :
    ((l.map g).dedup).length ≤ l.dedup.length := by
  rw [← List.card_toFinset, ← List.card_toFinset]
  have himg : (l.map g).toFinset = l.toFinset.image g := by
    ext x
    simp [List.mem_toFinset, Finset.mem_image, List.mem_map]
  rw [himg]
  exact Finset.card_image_le

theorem find_map_mode_of_preserve (g : InodeRow → InodeRow)
    (hf : ∀ r, (g r).inode = r.inode ∧ (g r).mode = r.mode) :
    ∀ (l : List InodeRow) (j : Nat),
      ((l.map g).find? (fun r => r.inode == j)).map InodeRow.mode =
      (l.find? (fun r => r.inode == j)).map InodeRow.mode := by
  intro l
  induction l with
  | nil => intro j; rfl
  | cons hd tl ih =>
      intro j
      rw [List.map_cons]
      cases hj : hd.inode == j with
      | true =>
          have hj2 : ((g hd).inode == j) = true := by rw [(hf hd).1]; exact hj
          rw [List.find?_cons, List.find?_cons, hj2, hj]
          simp only [Option.map_some']
          rw [(hf hd).2]
      | false =>
          have hj2 : ((g hd).inode == j) = false := by rw [(hf hd).1]; exact hj
          rw [List.find?_cons, List.find?_cons, hj2, hj]
          dsimp only
          exact ih j

theorem bump_find_mode (l : List InodeRow) (C : Nat) (d : Int) (j : Nat) :
    ((bumpNlinks l C d).find? (fun r => r.inode == j)).map InodeRow.mode =
    (l.find? (fun r => r.inode == j)).map InodeRow.mode := by
  unfold bumpNlinks
  exact find_map_mode_of_preserve _
    (fun r => by by_cases h : (r.inode == C) = true <;> simp [h]) l j

theorem find?_inodeRow_self (l : List InodeRow) (r : InodeRow)
    (hnd : (l.map InodeRow.inode).Nodup) (hr : r ∈ l) :
    l.find? (fun q => q.inode == r.inode) = some r := by
  induction l with
  | nil => cases hr
  | cons hd tl ih =>
      rw [List.map_cons, List.nodup_cons] at hnd
      rcases List.mem_cons.mp hr with rfl | hmem
      · rw [List.find?_cons]
        simp
      · have hne : (hd.inode == r.inode) = false := by
          rw [beq_eq_false_iff_ne]
          intro he
          apply hnd.1
          rw [he]
          exact List.mem_map_of_mem InodeRow.inode hmem
        rw [List.find?_cons, hne]
        exact ih hnd.2 hmem

theorem modeOf_self (fs : FS) (r : InodeRow)
    (hnd : (fs.inodes.map InodeRow.inode).Nodup) (hr : r ∈ fs.inodes) :
    modeOf fs r.inode = r.mode := by
  unfold modeOf
  rw [find?_inodeRow_self fs.inodes r hnd hr]
  rfl

theorem filter_append_one_count (p : TreeRow → Bool) (l : List TreeRow)
    (x : TreeRow) :
    ((l ++ [x]).filter p).length =
    (l.filter p).length + (if p x then 1 else 0) := by
  rw [List.filter_append, List.length_append]
  congr 1
  by_cases hp : p x = true
  · simp [List.filter_cons, hp]
  · simp [List.filter_cons, hp]

theorem filter_remove_pred_count (nid : Nat) (rr : TreeRow) (p : TreeRow → Bool) :
    ∀ l : List TreeRow, rr ∈ l → rr.id = nid → (l.map TreeRow.id).Nodup →
      ((l.filter (fun t => t.id != nid)).filter p).length +
        (if p rr then 1 else 0) = (l.filter p).length := by
  intro l
  induction l with
  | nil => intro h; cases h
  | cons hd tl ih =>
      intro hmem hid hnd
      rw [List.map_cons, List.nodup_cons] at hnd
      rcases List.mem_cons.mp hmem with rfl | hmem2
      · have hhd : (rr.id != nid) = false := by simp [hid]
        have htl : tl.filter (fun t => t.id != nid) = tl := by
          apply List.filter_eq_self.mpr
          intro a ha
          have hmm : a.id ∈ tl.map TreeRow.id := List.mem_map_of_mem _ ha
          have hne : a.id ≠ nid := by
            intro he
            apply hnd.1
            rw [hid, ← he]
            exact hmm
          simp [hne]
        rw [List.filter_cons, hhd]
        rw [if_neg (by simp), htl, List.filter_cons]
        by_cases hp : p rr = true
        · rw [if_pos hp, if_pos hp, List.length_cons]
        · rw [if_neg hp, if_neg hp]
          exact Nat.add_zero _
      · have hhd : (hd.id != nid) = true := by
          simp only [bne_iff_ne, ne_eq]
          intro he
          apply hnd.1
          rw [he, ← hid]
          exact List.mem_map_of_mem _ hmem2
        rw [List.filter_cons, hhd]
        rw [if_pos rfl, List.filter_cons, List.filter_cons]
        by_cases hp : p hd = true
        · rw [if_pos hp, if_pos hp, List.length_cons, List.length_cons]
          have := ih hmem2 hid hnd.2
          omega
        · rw [if_neg hp, if_neg hp]
          exact ih hmem2 hid hnd.2

theorem any_filter_of_imp (l : List TreeRow) (pr keep : TreeRow → Bool)
    (h : ∀ q, pr q = true → keep q = true) :
    (l.filter keep).any pr = l.any pr := by
  induction l with
  | nil => rfl
  | cons hd tl ih =>
      rw [List.filter_cons]
      by_cases hk : keep hd = true
      · rw [if_pos hk, List.any_cons, List.any_cons, ih]
      · rw [if_neg hk]
        have hph : pr hd = false := by
          cases hph : pr hd
          · rfl
          · exact absurd (h hd hph) hk
        rw [List.any_cons, hph, Bool.false_or]
        exact ih

theorem or_and_self (m n : Nat) : (m ||| n) &&& n = n := by
  apply Nat.eq_of_testBit_eq
  intro i
  rw [Nat.testBit_and, Nat.testBit_or]
  cases m.testBit i <;> cases n.testBit i <;> rfl

theorem mem_id_unique (l : List TreeRow)
    (hnd : (l.map TreeRow.id).Nodup) (u v : TreeRow)
    (hu : u ∈ l) (hv : v ∈ l) (he : u.id = v.id) : u = v :=
  List.inj_on_of_nodup_map hnd hu hv he

theorem linkInv_insert_nondir (a b : FS) (x : TreeRow)
    (ht : a.tree = b.tree ++ [x])
    (hi : a.inodes = bumpNlinks b.inodes x.inode 1)
    (hparfresh : ∀ t ∈ b.tree, ∀ p, t.parent_id = some p → (x.id == p) = false)
    (hndI : (b.inodes.map InodeRow.inode).Nodup)
    (hCnd : isDirMode (modeOf b x.inode) = false)
    (hinv : linkInv b) : linkInv a := by
  have hmode : ∀ j, modeOf a j = modeOf b j := by
    intro j
    unfold modeOf
    rw [hi, bump_find_mode]
  have hdco : ∀ j, ∀ r ∈ b.tree, dirChildOf a j r = dirChildOf b j r := by
    intro j r hr
    unfold dirChildOf
    rw [hmode r.inode]
    cases hp : r.parent_id with
    | none => rfl
    | some p =>
        dsimp only
        rw [ht, List.any_append, List.any_cons, List.any_nil]
        rw [hparfresh r hr p hp, Bool.and_false, Bool.or_false, Bool.or_false]
  have hxno : ∀ j, dirChildOf a j x = false := by
    intro j
    unfold dirChildOf
    rw [hmode x.inode, hCnd, Bool.and_false]
  have hdcc : ∀ j, dirChildCount a j = dirChildCount b j := by
    intro j
    unfold dirChildCount
    rw [ht, filter_append_one_count, hxno j, if_neg Bool.false_ne_true]
    rw [List.filter_congr (fun r hr => hdco j r hr), Nat.add_zero]
  have htc : ∀ j, treeCount a j =
      treeCount b j + (if x.inode == j then 1 else 0) := by
    intro j
    unfold treeCount
    rw [ht, filter_append_one_count]
  intro r' hr'
  rw [hi] at hr'
  unfold bumpNlinks at hr'
  obtain ⟨r, hrm, hre⟩ := List.mem_map.mp hr'
  have hmain := hinv r hrm
  by_cases hc : (r.inode == x.inode) = true
  · rw [if_pos hc] at hre
    subst hre
    dsimp only
    have hceq : r.inode = x.inode := eq_of_beq hc
    have hmr : isDirMode r.mode = false := by
      rw [← modeOf_self b r hndI hrm, hceq]
      exact hCnd
    have hcx : (x.inode == r.inode) = true := beq_iff_eq.mpr hceq.symm
    rw [htc, hdcc, hmr, if_neg Bool.false_ne_true, hcx, if_pos rfl]
    rw [hmr, if_neg Bool.false_ne_true] at hmain
    omega
  · rw [if_neg hc] at hre
    subst hre
    have hcne : (x.inode == r.inode) = false := by
      rw [beq_eq_false_iff_ne]
      exact fun he => hc (beq_iff_eq.mpr he.symm)
    rw [htc, hdcc, hcne, if_neg Bool.false_ne_true]
    omega

theorem linkInv_insert_dir (a b : FS) (x : TreeRow) (nr : InodeRow)
    (w : TreeRow) (P pid : Nat)
    (ht : a.tree = b.tree ++ [x])
    (hi : a.inodes = bumpNlinks (b.inodes ++ [nr]) P 1)
    (hxir : x.inode = nr.inode)
    (hxp : x.parent_id = some pid)
    (hnl : nr.nlinks = 2) (hdm : isDirMode nr.mode = true)
    (hfreshI : ∀ r ∈ b.inodes, r.inode ≠ nr.inode)
    (hfreshTI : ∀ t ∈ b.tree, t.inode ≠ nr.inode)
    (hparfresh : ∀ t ∈ b.tree, ∀ p, t.parent_id = some p → (x.id == p) = false)
    (hw : w ∈ b.tree) (hwid : w.id = pid) (hwP : w.inode = P)
    (hpidx : (x.id == pid) = false)
    (hndT : (b.tree.map TreeRow.id).Nodup)
    (hndI : (b.inodes.map InodeRow.inode).Nodup)
    (hPdir : isDirMode (modeOf b P) = true)
    (hPne : P ≠ nr.inode)
    (hinv : linkInv b) : linkInv a := by
  have hmodeO : ∀ j, j ≠ nr.inode → modeOf a j = modeOf b j := by
    intro j hj
    unfold modeOf
    rw [hi, bump_find_mode]
    cases hf : b.inodes.find? (fun r => r.inode == j) with
    | some v => rw [find?_append_some _ _ _ _ hf]
    | none =>
        have h1 : ∀ r ∈ b.inodes, ((fun q => q.inode == j) r) = false := by
          intro r hr
          show (r.inode == j) = false
          have h2 := List.find?_eq_none.mp hf r hr
          cases hb : (r.inode == j)
          · rfl
          · exact absurd hb h2
        have h2 : (nr.inode == j) = false := by
          rw [beq_eq_false_iff_ne]
          exact fun he => hj he.symm
        rw [find?_append_none _ _ _ h1, List.find?_cons, h2]
        rfl
  have hmodeN : modeOf a nr.inode = nr.mode := by
    unfold modeOf
    rw [hi, bump_find_mode]
    have h1 : ∀ r ∈ b.inodes, ((fun q => q.inode == nr.inode) r) = false := by
      intro r hr
      exact beq_eq_false_iff_ne.mpr (hfreshI r hr)
    rw [find?_append_none _ _ _ h1, List.find?_cons]
    rw [show (nr.inode == nr.inode) = true from beq_self_eq_true _]
    rfl
  have hdco : ∀ j, ∀ r ∈ b.tree, dirChildOf a j r = dirChildOf b j r := by
    intro j r hr
    unfold dirChildOf
    rw [hmodeO r.inode (hfreshTI r hr)]
    cases hp : r.parent_id with
    | none => rfl
    | some p =>
        dsimp only
        rw [ht, List.any_append, List.any_cons, List.any_nil]
        rw [hparfresh r hr p hp, Bool.and_false, Bool.or_false, Bool.or_false]
  have hxP : dirChildOf a P x = true := by
    unfold dirChildOf
    rw [hxp]
    dsimp only
    have hany : a.tree.any (fun q => q.inode == P && q.id == pid) = true := by
      rw [List.any_eq_true]
      refine ⟨w, ?_, ?_⟩
      · rw [ht]
        exact List.mem_append_left _ hw
      · rw [hwid, hwP]
        simp
    rw [hany, hxir, hmodeN, hdm]
    rfl
  have hxNP : ∀ j, j ≠ P → dirChildOf a j x = false := by
    intro j hj
    unfold dirChildOf
    rw [hxp]
    dsimp only
    have hany : a.tree.any (fun q => q.inode == j && q.id == pid) = false := by
      cases hq : a.tree.any (fun q => q.inode == j && q.id == pid) with
      | false => rfl
      | true =>
          exfalso
          obtain ⟨q, hqm, hqp⟩ := List.any_eq_true.mp hq
          rw [Bool.and_eq_true] at hqp
          rw [ht] at hqm
          rcases List.mem_append.mp hqm with hqb | hqx
          · have hq2 : q = w := mem_id_unique b.tree hndT q w hqb hw
              ((eq_of_beq hqp.2).trans hwid.symm)
            apply hj
            rw [← eq_of_beq hqp.1, hq2, hwP]
          · have hq2 : q = x := List.mem_singleton.mp hqx
            have hq3 := hqp.2
            rw [hq2, hpidx] at hq3
            cases hq3
    rw [hany, Bool.false_and]
  have htc : ∀ j, treeCount a j =
      treeCount b j + (if x.inode == j then 1 else 0) := by
    intro j
    unfold treeCount
    rw [ht, filter_append_one_count]
  have htcN : treeCount b nr.inode = 0 := by
    unfold treeCount
    rw [List.length_eq_zero, List.filter_eq_nil_iff]
    intro t htm h
    exact hfreshTI t htm (eq_of_beq h)
  have hdccO : ∀ j, j ≠ P → dirChildCount a j = dirChildCount b j := by
    intro j hj
    unfold dirChildCount
    rw [ht, filter_append_one_count, hxNP j hj, if_neg Bool.false_ne_true]
    rw [List.filter_congr (fun r hr => hdco j r hr), Nat.add_zero]
  have hdccP : dirChildCount a P = dirChildCount b P + 1 := by
    unfold dirChildCount
    rw [ht, filter_append_one_count, hxP, if_pos rfl]
    rw [List.filter_congr (fun r hr => hdco P r hr)]
  have hdccN : dirChildCount b nr.inode = 0 := by
    unfold dirChildCount
    rw [List.length_eq_zero, List.filter_eq_nil_iff]
    intro t htm h
    unfold dirChildOf at h
    rw [Bool.and_eq_true] at h
    obtain ⟨h1, _⟩ := h
    cases hp : t.parent_id with
    | none =>
        rw [hp] at h1
        cases h1
    | some p =>
        rw [hp] at h1
        dsimp only at h1
        obtain ⟨q, hqm, hqp⟩ := List.any_eq_true.mp h1
        rw [Bool.and_eq_true] at hqp
        exact hfreshTI q hqm (eq_of_beq hqp.1)
  intro r' hr'
  rw [hi] at hr'
  unfold bumpNlinks at hr'
  obtain ⟨r, hrm, hre⟩ := List.mem_map.mp hr'
  rcases List.mem_append.mp hrm with hrb | hrn
  · have hrne : r.inode ≠ nr.inode := hfreshI r hrb
    have hmain := hinv r hrb
    by_cases hc : (r.inode == P) = true
    · rw [if_pos hc] at hre
      subst hre
      dsimp only
      have hceq : r.inode = P := eq_of_beq hc
      have hmr : isDirMode r.mode = true := by
        rw [← modeOf_self b r hndI hrb, hceq]
        exact hPdir
      have hxir2 : (x.inode == r.inode) = false := by
        rw [beq_eq_false_iff_ne, hxir, hceq]
        exact fun he => hPne he.symm
      rw [htc, hxir2, if_neg Bool.false_ne_true, hmr, if_pos rfl]
      rw [hceq, hdccP]
      rw [hmr, if_pos rfl, hceq] at hmain
      omega
    · rw [if_neg hc] at hre
      subst hre
      have hcne : r.inode ≠ P := fun he => hc (beq_iff_eq.mpr he)
      have hxir2 : (x.inode == r.inode) = false := by
        rw [beq_eq_false_iff_ne, hxir]
        exact fun he => hrne he.symm
      rw [htc, hdccO r.inode hcne, hxir2, if_neg Bool.false_ne_true]
      omega
  · have hrn2 : r = nr := List.mem_singleton.mp hrn
    subst hrn2
    have hcne : (r.inode == P) = false := by
      rw [beq_eq_false_iff_ne]
      exact fun he => hPne he.symm
    rw [hcne, if_neg Bool.false_ne_true] at hre
    subst hre
    have hxx : (x.inode == r.inode) = true := beq_iff_eq.mpr hxir
    rw [htc, htcN, hxx, if_pos rfl, hdm, if_pos rfl]
    rw [hdccO r.inode (fun he => hPne he.symm), hdccN, hnl]
    omega

theorem linkInv_remove_nondir (a b : FS) (rr : TreeRow) (nid C : Nat)
    (ht : a.tree = b.tree.filter (fun t => t.id != nid))
    (hi : a.inodes = bumpNlinks b.inodes C (-1))
    (hrr : rr ∈ b.tree) (hrid : rr.id = nid) (hrC : rr.inode = C)
    (hnoch : ∀ t ∈ b.tree, ∀ p, t.parent_id = some p → p ≠ nid)
    (hndT : (b.tree.map TreeRow.id).Nodup)
    (hndI : (b.inodes.map InodeRow.inode).Nodup)
    (hCnd : isDirMode (modeOf b C) = false)
    (hinv : linkInv b) : linkInv a := by
  have hmode : ∀ j, modeOf a j = modeOf b j := by
    intro j
    unfold modeOf
    rw [hi, bump_find_mode]
  have hdco : ∀ j, ∀ r ∈ b.tree, dirChildOf a j r = dirChildOf b j r := by
    intro j r hr
    unfold dirChildOf
    rw [hmode r.inode]
    cases hp : r.parent_id with
    | none => rfl
    | some p =>
        dsimp only
        rw [ht]
        rw [any_filter_of_imp]
        intro q hq
        rw [Bool.and_eq_true] at hq
        simp only [bne_iff_ne, ne_eq]
        rw [eq_of_beq hq.2]
        exact hnoch r hr p hp
  have hdcc : ∀ j, dirChildCount a j = dirChildCount b j := by
    intro j
    unfold dirChildCount
    have h1 : a.tree.filter (dirChildOf a j) = a.tree.filter (dirChildOf b j) := by
      apply List.filter_congr
      intro r hra
      apply hdco j r
      rw [ht] at hra
      exact List.mem_of_mem_filter hra
    rw [h1, ht]
    have h2 := filter_remove_pred_count nid rr (dirChildOf b j) b.tree hrr hrid hndT
    have h3 : dirChildOf b j rr = false := by
      unfold dirChildOf
      rw [hrC, hCnd, Bool.and_false]
    rw [h3, if_neg Bool.false_ne_true] at h2
    omega
  have htc : ∀ j, treeCount a j + (if rr.inode == j then 1 else 0) =
      treeCount b j := by
    intro j
    unfold treeCount
    rw [ht]
    exact filter_remove_pred_count nid rr _ b.tree hrr hrid hndT
  intro r' hr'
  rw [hi] at hr'
  unfold bumpNlinks at hr'
  obtain ⟨r, hrm, hre⟩ := List.mem_map.mp hr'
  have hmain := hinv r hrm
  by_cases hc : (r.inode == C) = true
  · rw [if_pos hc] at hre
    subst hre
    dsimp only
    have hceq : r.inode = C := eq_of_beq hc
    have hmr : isDirMode r.mode = false := by
      rw [← modeOf_self b r hndI hrm, hceq]
      exact hCnd
    have hrx : (rr.inode == r.inode) = true := beq_iff_eq.mpr (by rw [hrC, hceq])
    have h4 := htc r.inode
    rw [hrx, if_pos rfl] at h4
    rw [hmr, if_neg Bool.false_ne_true] at hmain ⊢
    omega
  · rw [if_neg hc] at hre
    subst hre
    have hrx : (rr.inode == r.inode) = false := by
      rw [beq_eq_false_iff_ne, hrC]
      exact fun he => hc (beq_iff_eq.mpr he.symm)
    have h4 := htc r.inode
    rw [hrx, if_neg Bool.false_ne_true] at h4
    rw [hdcc r.inode]
    omega

theorem linkInv_remove_dir (a b : FS) (rr w : TreeRow) (nid C P pid : Nat)
    (ht : a.tree = b.tree.filter (fun t => t.id != nid))
    (hi : a.inodes = bumpNlinks (bumpNlinks b.inodes C (-1)) P (-1))
    (hrr : rr ∈ b.tree) (hrid : rr.id = nid) (hrC : rr.inode = C)
    (hrp : rr.parent_id = some pid)
    (hw : w ∈ b.tree) (hwid : w.id = pid) (hwP : w.inode = P)
    (hnoch : ∀ t ∈ b.tree, ∀ p, t.parent_id = some p → p ≠ nid)
    (hndT : (b.tree.map TreeRow.id).Nodup)
    (hndI : (b.inodes.map InodeRow.inode).Nodup)
    (hCdir : isDirMode (modeOf b C) = true)
    (hPdir : isDirMode (modeOf b P) = true)
    (hPC : P ≠ C)
    (hinv : linkInv b) : linkInv a := by
  have hmode : ∀ j, modeOf a j = modeOf b j := by
    intro j
    unfold modeOf
    rw [hi, bump_find_mode, bump_find_mode]
  have hdco : ∀ j, ∀ r ∈ b.tree, dirChildOf a j r = dirChildOf b j r := by
    intro j r hr
    unfold dirChildOf
    rw [hmode r.inode]
    cases hp : r.parent_id with
    | none => rfl
    | some p =>
        dsimp only
        rw [ht]
        rw [any_filter_of_imp]
        intro q hq
        rw [Bool.and_eq_true] at hq
        simp only [bne_iff_ne, ne_eq]
        rw [eq_of_beq hq.2]
        exact hnoch r hr p hp
  have htc : ∀ j, treeCount a j + (if rr.inode == j then 1 else 0) =
      treeCount b j := by
    intro j
    unfold treeCount
    rw [ht]
    exact filter_remove_pred_count nid rr _ b.tree hrr hrid hndT
  have hdrrP : dirChildOf b P rr = true := by
    unfold dirChildOf
    rw [hrp]
    dsimp only
    rw [hrC, hCdir, Bool.and_true]
    rw [List.any_eq_true]
    exact ⟨w, hw, by rw [hwid, hwP]; simp⟩
  have hdrrO : ∀ j, j ≠ P → dirChildOf b j rr = false := by
    intro j hj
    unfold dirChildOf
    rw [hrp]
    dsimp only
    have hany : b.tree.any (fun q => q.inode == j && q.id == pid) = false := by
      cases hq : b.tree.any (fun q => q.inode == j && q.id == pid) with
      | false => rfl
      | true =>
          exfalso
          obtain ⟨q, hqm, hqp⟩ := List.any_eq_true.mp hq
          rw [Bool.and_eq_true] at hqp
          have hq2 : q = w := mem_id_unique b.tree hndT q w hqm hw
            ((eq_of_beq hqp.2).trans hwid.symm)
          apply hj
          rw [← eq_of_beq hqp.1, hq2, hwP]
    rw [hany, Bool.false_and]
  have hfc : ∀ j, a.tree.filter (dirChildOf a j) = a.tree.filter (dirChildOf b j) := by
    intro j
    apply List.filter_congr
    intro r hra
    apply hdco j r
    rw [ht] at hra
    exact List.mem_of_mem_filter hra
  have hdccP : dirChildCount a P + 1 = dirChildCount b P := by
    unfold dirChildCount
    rw [hfc P, ht]
    have h2 := filter_remove_pred_count nid rr (dirChildOf b P) b.tree hrr hrid hndT
    rw [hdrrP, if_pos rfl] at h2
    exact h2
  have hdccO : ∀ j, j ≠ P → dirChildCount a j = dirChildCount b j := by
    intro j hj
    unfold dirChildCount
    rw [hfc j, ht]
    have h2 := filter_remove_pred_count nid rr (dirChildOf b j) b.tree hrr hrid hndT
    rw [hdrrO j hj, if_neg Bool.false_ne_true] at h2
    omega
  intro r' hr'
  rw [hi] at hr'
  unfold bumpNlinks at hr'
  obtain ⟨r1, hr1m, hre1⟩ := List.mem_map.mp hr'
  obtain ⟨r, hrm, hre0⟩ := List.mem_map.mp hr1m
  have hmain := hinv r hrm
  by_cases hc : (r.inode == C) = true
  · have hceq : r.inode = C := eq_of_beq hc
    rw [if_pos hc] at hre0
    subst hre0
    have hcp : (({ r with nlinks := r.nlinks + (-1) } : InodeRow).inode == P) = false := by
      show (r.inode == P) = false
      rw [beq_eq_false_iff_ne, hceq]
      exact fun he => hPC he.symm
    rw [hcp, if_neg Bool.false_ne_true] at hre1
    subst hre1
    dsimp only
    have hmr : isDirMode r.mode = true := by
      rw [← modeOf_self b r hndI hrm, hceq]
      exact hCdir
    have hrx : (rr.inode == r.inode) = true := beq_iff_eq.mpr (by rw [hrC, hceq])
    have h4 := htc r.inode
    rw [hrx, if_pos rfl] at h4
    have h5 := hdccO r.inode (fun he => hPC (he.symm.trans hceq))
    rw [hmr, if_pos rfl] at hmain ⊢
    rw [h5]
    omega
  · rw [if_neg hc] at hre0
    subst hre0
    by_cases hp2 : (r.inode == P) = true
    · have hpeq : r.inode = P := eq_of_beq hp2
      rw [hp2, if_pos rfl] at hre1
      subst hre1
      dsimp only
      have hmr : isDirMode r.mode = true := by
        rw [← modeOf_self b r hndI hrm, hpeq]
        exact hPdir
      have hrx : (rr.inode == r.inode) = false := by
        rw [beq_eq_false_iff_ne, hrC, hpeq]
        exact fun he => hPC he.symm
      have h4 := htc r.inode
      rw [hrx, if_neg Bool.false_ne_true] at h4
      have h5 := hdccP
      rw [← hpeq] at h5
      rw [hmr, if_pos rfl] at hmain ⊢
      omega
    · rw [if_neg hp2] at hre1
      subst hre1
      have hrx : (rr.inode == r.inode) = false := by
        rw [beq_eq_false_iff_ne, hrC]
        exact fun he => hc (beq_iff_eq.mpr he.symm)
      have h4 := htc r.inode
      rw [hrx, if_neg Bool.false_ne_true] at h4
      rw [hdccO r.inode (fun he => hp2 (beq_iff_eq.mpr he))]
      omega

theorem mkdirOp_preserves (fs fs' : FS) (path : String) (mode : Nat)
    (hwf : wfFS fs) (hinv : linkInv fs)
    (hsound : resSound fs (splitPath path).1)
    (hpdir : resDir fs (splitPath path).1)
    (hok : mkdirOp fs path mode = (0, fs')) : linkInv fs' := by
  obtain ⟨hndI, hndT, hIlt, hTlt, hTid, hPid, hndH, hHlt⟩ := hwf
  unfold mkdirOp at hok
  by_cases hro : fs.read_only = true
  · rw [if_pos hro] at hok
    have h1 : (-eRofs : Int) = 0 := congrArg Prod.fst hok
    exact absurd h1 (by decide)
  · rw [if_neg hro] at hok
    cases hic : insertCore fs path (mode ||| sIFDIR) 4096 0 with
    | error ef =>
        obtain ⟨e, f⟩ := ef
        rw [hic] at hok
        unfold insertCore at hic
        dsimp only at hic
        cases hres : (path2keys fs (splitPath path).1).result with
        | error u =>
            rw [hres] at hic
            dsimp only at hic
            injection hic with h2
            have he : Exc.oserror eNoEnt = e := congrArg Prod.fst h2
            rw [← he] at hok
            have h1 : excToStatus (Exc.oserror eNoEnt) eIo = 0 := congrArg Prod.fst hok
            exact absurd h1 (by decide)
        | ok k =>
            rw [hres] at hic
            dsimp only at hic
            split at hic
            · injection hic with h2
              have he : Exc.other = e := congrArg Prod.fst h2
              rw [← he] at hok
              have h1 : (-5 : Int) = 0 := congrArg Prod.fst hok
              exact absurd h1 (by decide)
            · cases hic
    | ok t3 =>
        obtain ⟨ino, pino, f⟩ := t3
        rw [hic] at hok
        dsimp only at hok
        have hst : (gcStatus 0 (-eIo)
            (gcHook { f with inodes := bumpNlinks f.inodes pino 1 } false)).1 = 0 :=
          congrArg Prod.fst hok
        have hraised := gcStatus_fst_eq 0 (-eIo) _ (by decide) hst
        obtain ⟨oc, gl, hsh⟩ :=
          gcHook_quiet_shape { f with inodes := bumpNlinks f.inodes pino 1 } false hraised
        have hfs2 : fs' = (gcHook { f with inodes := bumpNlinks f.inodes pino 1 } false).fsOf := by
          have h3 := congrArg Prod.snd hok
          rw [gcStatus_snd] at h3
          exact h3.symm
        have htr : fs'.tree = f.tree := by rw [hfs2, hsh]
        have hin : fs'.inodes = bumpNlinks f.inodes pino 1 := by rw [hfs2, hsh]
        unfold insertCore at hic
        dsimp only at hic
        cases hres : (path2keys fs (splitPath path).1).result with
        | error u => rw [hres] at hic; dsimp only at hic; cases hic
        | ok k =>
            rw [hres] at hic
            dsimp only at hic
            split at hic
            · cases hic
            · injection hic with h2
              injection h2 with h2a h2b
              injection h2b with h2b h2c
              obtain ⟨q, hq, hqid, hqino⟩ := hsound k hres
              have hq2 : q.inode = pino := hqino.trans h2b
              have hcore := path2keys_core fs (splitPath path).1
              have hcond : (if ((mode ||| sIFDIR) &&& sIFDIR != 0) = true
                  then (2 : Int) else 1) = 2 := by
                rw [or_and_self]
                decide
              have hshape : f.tree = fs.tree ++
                    [⟨fs.nextTreeId, some k.1, (splitPath path).2, fs.nextInode⟩] ∧
                  f.inodes = fs.inodes ++
                    [⟨fs.nextInode, 2, mode ||| sIFDIR, fs.ctxUid, fs.ctxGid,
                      0, 4096, fs.now, fs.now, fs.now⟩] := by
                constructor
                · rw [← h2c, core_tree (cacheSet_core _ _ _)]
                  dsimp only
                  rw [core_tree hcore, core_nextTreeId hcore, core_nextInode hcore]
                · rw [← h2c, core_inodes (cacheSet_core _ _ _)]
                  dsimp only
                  rw [core_inodes hcore, core_nextInode hcore, core_ctxUid hcore,
                    core_ctxGid hcore, core_now hcore, hcond]
              have ht2 : fs'.tree = fs.tree ++
                  [⟨fs.nextTreeId, some k.1, (splitPath path).2, fs.nextInode⟩] := by
                rw [htr, hshape.1]
              have hi2 : fs'.inodes = bumpNlinks (fs.inodes ++
                  [⟨fs.nextInode, 2, mode ||| sIFDIR, fs.ctxUid, fs.ctxGid,
                    0, 4096, fs.now, fs.now, fs.now⟩]) pino 1 := by
                rw [hin, hshape.2]
              have hdm2 : isDirMode (mode ||| sIFDIR) = true := by
                unfold isDirMode
                rw [or_and_self]
                decide
              exact linkInv_insert_dir fs' fs _ _ q pino k.1 ht2 hi2 rfl rfl rfl hdm2
                (fun r0 hr0 => Nat.ne_of_lt (hIlt r0 hr0))
                (fun t htm => Nat.ne_of_lt (hTlt t htm))
                (fun t htm p hp => beq_eq_false_iff_ne.mpr
                  (fun he => Nat.lt_irrefl _ (he ▸ hPid t htm p hp)))
                hq hqid hq2
                (beq_eq_false_iff_ne.mpr
                  (fun he => Nat.lt_irrefl _ (he ▸ (hqid ▸ hTid q hq))))
                hndT hndI (h2b ▸ hpdir k hres)
                (fun he => Nat.lt_irrefl _ (he ▸ (hq2 ▸ hTlt q hq)))
                hinv

theorem linkOp_preserves (fs fs' : FS) (tp lp : String)
    (hwf : wfFS fs) (hinv : linkInv fs)
    (htnd : resNonDir fs tp)
    (hok : linkOp fs tp lp = (0, fs')) : linkInv fs' := by
  obtain ⟨hndI, hndT, hIlt, hTlt, hTid, hPid, hndH, hHlt⟩ := hwf
  unfold linkOp at hok
  by_cases hro : fs.read_only = true
  · rw [if_pos hro] at hok
    have h1 : (-eRofs : Int) = 0 := congrArg Prod.fst hok
    exact absurd h1 (by decide)
  · rw [if_neg hro] at hok
    cases hlc : linkCore fs tp lp with
    | error ef =>
        obtain ⟨e, f⟩ := ef
        rw [hlc] at hok
        unfold linkCore at hlc
        dsimp only at hlc
        cases hres1 : (path2keys fs tp).result with
        | error u =>
            rw [hres1] at hlc
            dsimp only at hlc
            injection hlc with h2
            have he : Exc.oserror eNoEnt = e := congrArg Prod.fst h2
            rw [← he] at hok
            have h1 : excToStatus (Exc.oserror eNoEnt) eIo = 0 := congrArg Prod.fst hok
            exact absurd h1 (by decide)
        | ok kt =>
            rw [hres1] at hlc
            dsimp only at hlc
            cases hres2 : (path2keys (path2keys fs tp).fs (splitPath lp).1).result with
            | error u =>
                rw [hres2] at hlc
                dsimp only at hlc
                injection hlc with h2
                have he : Exc.oserror eNoEnt = e := congrArg Prod.fst h2
                rw [← he] at hok
                have h1 : (-2 : Int) = 0 := congrArg Prod.fst hok
                exact absurd h1 (by decide)
            | ok kp =>
                rw [hres2] at hlc
                dsimp only at hlc
                split at hlc
                · injection hlc with h2
                  have he : Exc.other = e := congrArg Prod.fst h2
                  rw [← he] at hok
                  have h1 : (-5 : Int) = 0 := congrArg Prod.fst hok
                  exact absurd h1 (by decide)
                · cases hlc
    | ok f =>
        rw [hlc] at hok
        dsimp only at hok
        have hst : (gcStatus 0 (-eIo) (gcHook f false)).1 = 0 := congrArg Prod.fst hok
        have hraised := gcStatus_fst_eq 0 (-eIo) _ (by decide) hst
        obtain ⟨oc, gl, hsh⟩ := gcHook_quiet_shape f false hraised
        have hfs2 : fs' = (gcHook f false).fsOf := by
          have h3 := congrArg Prod.snd hok
          rw [gcStatus_snd] at h3
          exact h3.symm
        have htr : fs'.tree = f.tree := by rw [hfs2, hsh]
        have hin : fs'.inodes = f.inodes := by rw [hfs2, hsh]
        unfold linkCore at hlc
        dsimp only at hlc
        cases hres1 : (path2keys fs tp).result with
        | error u => rw [hres1] at hlc; dsimp only at hlc; cases hlc
        | ok kt =>
            rw [hres1] at hlc
            dsimp only at hlc
            cases hres2 : (path2keys (path2keys fs tp).fs (splitPath lp).1).result with
            | error u => rw [hres2] at hlc; dsimp only at hlc; cases hlc
            | ok kp =>
                rw [hres2] at hlc
                dsimp only at hlc
                split at hlc
                · cases hlc
                · injection hlc with h2
                  have hcore1 := path2keys_core fs tp
                  have hcore2 := path2keys_core (path2keys fs tp).fs (splitPath lp).1
                  have hcc : ((path2keys (path2keys fs tp).fs (splitPath lp).1).fs).core =
                      fs.core := hcore2.trans hcore1
                  have hshape : f.tree = fs.tree ++
                        [⟨fs.nextTreeId, some kp.1, (splitPath lp).2, kt.2⟩] ∧
                      f.inodes = bumpNlinks fs.inodes kt.2 1 := by
                    constructor
                    · rw [← h2, core_tree (cacheSet_core _ _ _)]
                      dsimp only
                      rw [core_tree hcc, core_nextTreeId hcc]
                    · rw [← h2, core_inodes (cacheSet_core _ _ _)]
                      dsimp only
                      rw [core_inodes hcc]
                  have ht2 : fs'.tree = fs.tree ++
                      [⟨fs.nextTreeId, some kp.1, (splitPath lp).2, kt.2⟩] := by
                    rw [htr, hshape.1]
                  have hi2 : fs'.inodes = bumpNlinks fs.inodes kt.2 1 := by
                    rw [hin, hshape.2]
                  exact linkInv_insert_nondir fs' fs _ ht2 hi2
                    (fun t htm p hp => beq_eq_false_iff_ne.mpr
                      (fun he => Nat.lt_irrefl _ (he ▸ hPid t htm p hp)))
                    hndI (htnd kt hres1) hinv

theorem unlinkOp_preserves (fs fs' : FS) (path : String)
    (hwf : wfFS fs) (hinv : linkInv fs)
    (hsound : resSound fs path)
    (hnd2 : resNonDir fs path)
    (hnoch : ∀ k, (path2keys fs path).result = .ok k →
      ∀ t ∈ fs.tree, ∀ p, t.parent_id = some p → p ≠ k.1)
    (hok : unlinkOp fs path = (0, fs')) : linkInv fs' := by
  obtain ⟨hndI, hndT, hIlt, hTlt, hTid, hPid, hndH, hHlt⟩ := hwf
  unfold unlinkOp at hok
  by_cases hro : fs.read_only = true
  · rw [if_pos hro] at hok
    have h1 : (-eRofs : Int) = 0 := congrArg Prod.fst hok
    exact absurd h1 (by decide)
  · rw [if_neg hro] at hok
    cases hrc : removeCore fs path false with
    | error ef =>
        obtain ⟨e, f⟩ := ef
        rw [hrc] at hok
        unfold removeCore at hrc
        dsimp only at hrc
        cases hres : (path2keys fs path).result with
        | error u =>
            rw [hres] at hrc
            dsimp only at hrc
            injection hrc with h2
            have he : Exc.oserror eNoEnt = e := congrArg Prod.fst h2
            rw [← he] at hok
            have h1 : excToStatus (Exc.oserror eNoEnt) eIo = 0 := congrArg Prod.fst hok
            exact absurd h1 (by decide)
        | ok k =>
            rw [hres] at hrc
            dsimp only at hrc
            split at hrc
            · next hcond => simp at hcond
            · cases hrc
    | ok f =>
        rw [hrc] at hok
        have hf : f = fs' := congrArg Prod.snd hok
        unfold removeCore at hrc
        dsimp only at hrc
        cases hres : (path2keys fs path).result with
        | error u => rw [hres] at hrc; dsimp only at hrc; cases hrc
        | ok k =>
            rw [hres] at hrc
            dsimp only at hrc
            split at hrc
            · next hcond => simp at hcond
            · injection hrc with h2
              obtain ⟨q, hq, hqid, hqino⟩ := hsound k hres
              have hcore := path2keys_core fs path
              have hshape : f.tree = fs.tree.filter (fun t => t.id != k.1) ∧
                  f.inodes = bumpNlinks fs.inodes k.2 (-1) := by
                constructor
                · rw [← h2]
                  dsimp only
                  rw [core_tree (cacheSet_core _ _ _), core_tree hcore]
                · rw [← h2]
                  dsimp only
                  rw [core_inodes (cacheSet_core _ _ _), core_inodes hcore]
              exact linkInv_remove_nondir fs' fs q k.1 k.2
                (by rw [← hf, hshape.1]) (by rw [← hf, hshape.2])
                hq hqid hqino (hnoch k hres) hndT hndI (hnd2 k hres) hinv

theorem rmdirOp_preserves (fs fs' : FS) (path : String)
    (hwf : wfFS fs) (hinv : linkInv fs)
    (hsound : resSound fs path)
    (hcdir : resDir fs path)
    (hpar : ∀ k k2, (path2keys fs path).result = .ok k →
      (path2keys (removedState fs path true) (splitPath path).1).result = .ok k2 →
      k2.2 ≠ k.2 ∧ isDirMode (modeOf fs k2.2) = true ∧
      ∀ q ∈ fs.tree, q.id = k.1 →
        ∃ pid, q.parent_id = some pid ∧
          ∃ w, w ∈ fs.tree ∧ w.id = pid ∧ w.inode = k2.2)
    (hok : rmdirOp fs path = (0, fs')) : linkInv fs' := by
  obtain ⟨hndI, hndT, hIlt, hTlt, hTid, hPid, hndH, hHlt⟩ := hwf
  unfold rmdirOp at hok
  by_cases hro : fs.read_only = true
  · rw [if_pos hro] at hok
    have h1 : (-eRofs : Int) = 0 := congrArg Prod.fst hok
    exact absurd h1 (by decide)
  · rw [if_neg hro] at hok
    cases hrc : removeCore fs path true with
    | error ef =>
        obtain ⟨e, f⟩ := ef
        rw [hrc] at hok
        unfold removeCore at hrc
        dsimp only at hrc
        cases hres : (path2keys fs path).result with
        | error u =>
            rw [hres] at hrc
            dsimp only at hrc
            injection hrc with h2
            have he : Exc.oserror eNoEnt = e := congrArg Prod.fst h2
            rw [← he] at hok
            have h1 : excToStatus (Exc.oserror eNoEnt) eIo = 0 := congrArg Prod.fst hok
            exact absurd h1 (by decide)
        | ok k =>
            rw [hres] at hrc
            dsimp only at hrc
            split at hrc
            · injection hrc with h2
              have he : Exc.oserror eNotEmpty = e := congrArg Prod.fst h2
              rw [← he] at hok
              have h1 : (-39 : Int) = 0 := congrArg Prod.fst hok
              exact absurd h1 (by decide)
            · cases hrc
    | ok f =>
        rw [hrc] at hok
        dsimp only at hok
        cases hres2 : (path2keys f (splitPath path).1).result with
        | error u =>
            rw [hres2] at hok
            dsimp only at hok
            have h1 : (-2 : Int) = 0 := congrArg Prod.fst hok
            exact absurd h1 (by decide)
        | ok k2 =>
            rw [hres2] at hok
            dsimp only at hok
            injection hok with hst2 hf2
            have hrc0 := hrc
            unfold removeCore at hrc
            dsimp only at hrc
            cases hres : (path2keys fs path).result with
            | error u => rw [hres] at hrc; dsimp only at hrc; cases hrc
            | ok k =>
                rw [hres] at hrc
                dsimp only at hrc
                split at hrc
                · cases hrc
                · next hcond =>
                    have hcore := path2keys_core fs path
                    have hemp1 : ((path2keys fs path).fs.tree.filter
                        (fun t => t.parent_id == some k.1)).isEmpty = true := by
                      cases hb : ((path2keys fs path).fs.tree.filter
                          (fun t => t.parent_id == some k.1)).isEmpty
                      · exfalso
                        apply hcond
                        rw [hb]
                        rfl
                      · rfl
                    have hempty := List.isEmpty_iff.mp hemp1
                    rw [core_tree hcore] at hempty
                    have hnoch : ∀ t ∈ fs.tree, ∀ p,
                        t.parent_id = some p → p ≠ k.1 := by
                      intro t htm p hp he
                      have hmem : t ∈ fs.tree.filter
                          (fun t => t.parent_id == some k.1) := by
                        rw [List.mem_filter]
                        refine ⟨htm, ?_⟩
                        rw [hp, he]
                        simp
                      rw [hempty] at hmem
                      cases hmem
                    have hrs : removedState fs path true = f := by
                      unfold removedState
                      rw [hrc0]
                    injection hrc with h2
                    have hshape : f.tree = fs.tree.filter (fun t => t.id != k.1) ∧
                        f.inodes = bumpNlinks fs.inodes k.2 (-1) := by
                      constructor
                      · rw [← h2]
                        dsimp only
                        rw [core_tree (cacheSet_core _ _ _), core_tree hcore]
                      · rw [← h2]
                        dsimp only
                        rw [core_inodes (cacheSet_core _ _ _), core_inodes hcore]
                    have hcore2 := path2keys_core f (splitPath path).1
                    have ht2 : fs'.tree = fs.tree.filter (fun t => t.id != k.1) := by
                      rw [← hf2]
                      dsimp only
                      rw [core_tree hcore2, hshape.1]
                    have hi2 : fs'.inodes =
                        bumpNlinks (bumpNlinks fs.inodes k.2 (-1)) k2.2 (-1) := by
                      rw [← hf2]
                      dsimp only
                      rw [core_inodes hcore2, hshape.2]
                    obtain ⟨hne, hk2dir, hqpar⟩ :=
                      hpar k k2 hres (by rw [hrs]; exact hres2)
                    obtain ⟨q, hq, hqid, hqino⟩ := hsound k hres
                    obtain ⟨pid, hqp, w, hwm, hwid, hwP⟩ := hqpar q hq hqid
                    exact linkInv_remove_dir fs' fs q w k.1 k.2 k2.2 pid ht2 hi2
                      hq hqid hqino hqp hwm hwid hwP hnoch hndT hndI
                      (hcdir k hres) hk2dir hne hinv

/-- C4 (amended): the formula the code maintains is nlinks = treeCount
plus, for a directory, one plus the number of directory entries hanging
under it (not the claimed flat plus-two; a fresh directory has nlinks 2
with one tree row, and its parent gains one per child directory).  The
amended equality holds on a fresh mount and after a fresh mkdir, and is
preserved by every successful mkdir, by link and unlink of
non-directories, and by rmdir; resolution-soundness hypotheses tie the
path-cache answers to the tree table. -/
theorem link_count_invariant_preserved :
    linkInv fsZero ∧ linkInv fsDirD ∧
    (∀ fs fs' path mode, wfFS fs → linkInv fs →
      resSound fs (splitPath path).1 → resDir fs (splitPath path).1 →
      mkdirOp fs path mode = (0, fs') → linkInv fs') ∧
    (∀ fs fs' tp lp, wfFS fs → linkInv fs → resNonDir fs tp →
      linkOp fs tp lp = (0, fs') → linkInv fs') ∧
    (∀ fs fs' path, wfFS fs → linkInv fs → resSound fs path →
      resNonDir fs path →
      (∀ k, (path2keys fs path).result = .ok k →
        ∀ t ∈ fs.tree, ∀ p, t.parent_id = some p → p ≠ k.1) →
      unlinkOp fs path = (0, fs') → linkInv fs') ∧
    (∀ fs fs' path, wfFS fs → linkInv fs → resSound fs path → resDir fs path →
      (∀ k k2, (path2keys fs path).result = .ok k →
        (path2keys (removedState fs path true) (splitPath path).1).result = .ok k2 →
        k2.2 ≠ k.2 ∧ isDirMode (modeOf fs k2.2) = true ∧
        ∀ q ∈ fs.tree, q.id = k.1 →
          ∃ pid, q.parent_id = some pid ∧
            ∃ w, w ∈ fs.tree ∧ w.id = pid ∧ w.inode = k2.2) →
      rmdirOp fs path = (0, fs') → linkInv fs') :=
  ⟨by unfold linkInv; decide, by unfold linkInv; decide,
   fun fs fs' path mode hwf hinv hs hd hok =>
     mkdirOp_preserves fs fs' path mode hwf hinv hs hd hok,
   fun fs fs' tp lp hwf hinv ht hok =>
     linkOp_preserves fs fs' tp lp hwf hinv ht hok,
   fun fs fs' path hwf hinv hs hn hc hok =>
     unlinkOp_preserves fs fs' path hwf hinv hs hn hc hok,
   fun fs fs' path hwf hinv hs hd hp hok =>
     rmdirOp_preserves fs fs' path hwf hinv hs hd hp hok⟩

/-- Closed instance of the amended invariant: a second mkdir (of /e,
after /d) keeps the link-count equality. -/
theorem link_count_invariant_preserved_witness :
    linkInv (mkdirOp fsDirD "/e" 493).2 := by
  apply link_count_invariant_preserved.2.2.1 fsDirD
    (mkdirOp fsDirD "/e" 493).2 "/e" 493
  · unfold wfFS
    decide
  · unfold linkInv
    decide
  · intro k hk
    have h1 : (Except.ok ((1 : Nat), (1 : Nat)) : Except Unit (Nat × Nat)) =
        Except.ok k := hk
    injection h1 with h2
    subst h2
    exact ⟨⟨1, none, "", 1⟩, by decide, by decide, by decide⟩
  · intro k hk
    have h1 : (Except.ok ((1 : Nat), (1 : Nat)) : Except Unit (Nat × Nat)) =
        Except.ok k := hk
    injection h1 with h2
    subst h2
    decide
  · rfl

/-- C2: a flush grows the hashes table by at most the number of distinct
block digests of the flushed stream, which is at most the block count of
the stream; a second flush of the same bytes (to any other inode) adds
no hashes row at all; and in the concrete scenario (block_size 4,
abcdabcd to /x, abcd to /y, both released) the hashes table has exactly
one row and the block store exactly one entry, keyed by the digest of
abcd and holding abcd. -/
theorem dedup_hash_growth :
    (∀ (fs f : FS) (ino : Nat) (B : Bytes) (asize : Nat),
        (fs.hashes.map Prod.fst).Nodup →
        (∀ h ∈ fs.hashes, h.1 < fs.nextHashId) →
        (∀ bb, fs.decompress (fs.compress bb) = bb) →
        writeBlocks ino B asize fs = .ok f →
        f.hashes.length ≤ fs.hashes.length +
          (((chunkList fs.block_size B 0
            (numBlocks fs.block_size B.length)).map fs.hashFn).dedup).length ∧
        (((chunkList fs.block_size B 0
            (numBlocks fs.block_size B.length)).map fs.hashFn).dedup).length ≤
          numBlocks fs.block_size B.length) ∧
    (∀ (fs f1 f2 : FS) (ino1 ino2 : Nat) (B : Bytes) (a1 a2 : Nat),
        (fs.hashes.map Prod.fst).Nodup →
        (∀ h ∈ fs.hashes, h.1 < fs.nextHashId) →
        (∀ bb, fs.decompress (fs.compress bb) = bb) →
        writeBlocks ino1 B a1 fs = .ok f1 →
        writeBlocks ino2 B a2 f1 = .ok f2 →
        f2.hashes.length = f1.hashes.length) ∧
    (c2Final.hashes.length = 1 ∧
     c2Final.blocks = [(hashConcat abcdBytes, abcdBytes)]) := by
  refine ⟨?_, ?_, by decide, by decide⟩
  · intro fs f ino B asize hnd hbd hcomp hok
    obtain ⟨n1, hh1, hnd1, hin1, hall1, hbs1, hhf1, hcp1, hdc1, hidnd1, hidlt1⟩ :=
      writeBlocks_growth fs f ino B asize hnd hbd hcomp hok
    constructor
    · rw [hh1, List.length_append]
      have hle := nodup_sub_dedup_le (n1.map Prod.snd)
        ((chunkList fs.block_size B 0
          (numBlocks fs.block_size B.length)).map fs.hashFn)
        hnd1 (fun x hx => (hin1 x hx).1)
      rw [List.length_map] at hle
      omega
    · have h1 : (((chunkList fs.block_size B 0
          (numBlocks fs.block_size B.length)).map fs.hashFn).dedup).length ≤
          ((chunkList fs.block_size B 0
            (numBlocks fs.block_size B.length)).map fs.hashFn).length :=
        List.Sublist.length_le (List.dedup_sublist _)
      rw [List.length_map, chunkList_length] at h1
      exact h1
  · intro fs f1 f2 ino1 ino2 B a1 a2 hnd hbd hcomp hok1 hok2
    obtain ⟨n1, hh1, hnd1, hin1, hall1, hbs1, hhf1, hcp1, hdc1, hidnd1, hidlt1⟩ :=
      writeBlocks_growth fs f1 ino1 B a1 hnd hbd hcomp hok1
    have hcomp1 : ∀ bb, f1.decompress (f1.compress bb) = bb := by
      intro bb
      rw [hdc1, hcp1]
      exact hcomp bb
    obtain ⟨n2, hh2, hnd2, hin2, hall2, hbs2, hhf2, hcp2, hdc2, hidnd2, hidlt2⟩ :=
      writeBlocks_growth f1 f2 ino2 B a2 hidnd1 hidlt1 hcomp1 hok2
    have hn2nil : n2 = [] := by
      rcases n2 with _ | ⟨p, rest⟩
      · rfl
      · exfalso
        have hmem : p.2 ∈ ((p :: rest).map Prod.snd) := by simp
        obtain ⟨hinChunk, hnotIn⟩ := hin2 p.2 hmem
        rw [hbs1, hhf1] at hinChunk
        exact hnotIn (hall1 p.2 hinChunk)
    rw [hn2nil, List.append_nil] at hh2
    rw [hh2]

/-- Closed instance of the dedup growth bounds: flushing abcdabcd
(blocks abcd, abcd) into the fresh store adds at most the one distinct
digest, and flushing the same bytes again to another inode adds no
hashes row. -/
theorem dedup_hash_growth_witness :
    (flushedState (writeBlocks 2 (abcdBytes ++ abcdBytes) 8 fsZero)).hashes.length ≤
      fsZero.hashes.length +
      (((chunkList fsZero.block_size (abcdBytes ++ abcdBytes) 0
        (numBlocks fsZero.block_size
          (abcdBytes ++ abcdBytes).length)).map fsZero.hashFn).dedup).length ∧
    (flushedState (writeBlocks 3 (abcdBytes ++ abcdBytes) 8
        (flushedState (writeBlocks 2 (abcdBytes ++ abcdBytes) 8
          fsZero)))).hashes.length =
      (flushedState (writeBlocks 2 (abcdBytes ++ abcdBytes) 8
        fsZero)).hashes.length :=
  ⟨(dedup_hash_growth.1 fsZero
      (flushedState (writeBlocks 2 (abcdBytes ++ abcdBytes) 8 fsZero))
      2 (abcdBytes ++ abcdBytes) 8 (by decide) (by decide)
      (fun bb => rfl) rfl).1,
   dedup_hash_growth.2.1 fsZero
      (flushedState (writeBlocks 2 (abcdBytes ++ abcdBytes) 8 fsZero))
      (flushedState (writeBlocks 3 (abcdBytes ++ abcdBytes) 8
        (flushedState (writeBlocks 2 (abcdBytes ++ abcdBytes) 8 fsZero))))
      2 3 (abcdBytes ++ abcdBytes) 8 8 (by decide) (by decide)
      (fun bb => rfl) rfl rfl⟩

end Dedup
